import Mathlib

/-!
# booty::TimeStamp

A verification development for `booty/base/Timestamp.hpp`: a value type wrapping a signed
64-bit count of microseconds since the Unix epoch, its comparison operators, its two
text renderings and the free functions `TimeDifference` and `AddTime`.

Conventions of the embedding

* `int64_t` values are integers of `Int` inside `[-2^63, 2^63)`, see `isInt64`.  Every
  arithmetic operation of the header that can leave that interval is followed by `wrap64`,
  the two's complement reduction performed by the hardware.
* `/` and `%` on `int64_t` are the truncating `Int.tdiv` and `Int.tmod`.
* Text is a `List Char` while it is being formatted and a `String` once returned.
-/

namespace booty

/-! ## 64-bit integers -/

/-- The range of `int64_t`. -/
def isInt64 (x : Int) : Prop := -(2 : Int) ^ 63 ≤ x ∧ x < (2 : Int) ^ 63

instance (x : Int) : Decidable (isInt64 x) := by
  unfold isInt64
  exact inferInstance

/-- Two's complement reduction of an integer to the `int64_t` range. -/
def wrap64 (x : Int) : Int := (x + (2 : Int) ^ 63) % (2 : Int) ^ 64 - (2 : Int) ^ 63

/-- The range of `int`. -/
def isInt32 (x : Int) : Prop := -(2 : Int) ^ 31 ≤ x ∧ x < (2 : Int) ^ 31

instance (x : Int) : Decidable (isInt32 x) := by
  unfold isInt32
  exact inferInstance

/-- Two's complement reduction of an integer to the `int` range. -/
def wrap32 (x : Int) : Int := (x + (2 : Int) ^ 31) % (2 : Int) ^ 32 - (2 : Int) ^ 31

/-! ## The class `TimeStamp` -/

/-- `constexpr static int kMicrosecondsPerSecond = 1000 * 1000;` -/
def kMicrosecondsPerSecond : Int := 1000 * 1000

/-- The class `TimeStamp`: its only data member is `microsecondsSinceEpoch_`.  The
constructor `TimeStamp.mk` is the explicit constructor `TimeStamp(TimeType timesince)`. -/
structure TimeStamp where
  microsecondsSinceEpoch_ : Int
deriving DecidableEq, Repr

namespace TimeStamp

/-- The default constructor `TimeStamp()`. -/
def default : TimeStamp := ⟨0⟩

/-- `TimeType microsecondsSinceEpoch() const` -/
def microsecondsSinceEpoch (ts : TimeStamp) : Int := ts.microsecondsSinceEpoch_

/-- `static TimeStamp fromUnixTime(time_t t)`: the product is formed in `int64_t`. -/
def fromUnixTime (t : Int) : TimeStamp := ⟨wrap64 (t * kMicrosecondsPerSecond)⟩

/-- `time_t secondsSinceEpoch() const` -/
def secondsSinceEpoch (ts : TimeStamp) : Int :=
  Int.tdiv ts.microsecondsSinceEpoch_ kMicrosecondsPerSecond

/-- `void swap(TimeStamp& ts)`: the pair is (the object, the argument) after the call. -/
def swap (self ts : TimeStamp) : TimeStamp × TimeStamp :=
  (⟨ts.microsecondsSinceEpoch_⟩, ⟨self.microsecondsSinceEpoch_⟩)

end TimeStamp

/-! ## Comparison operators -/

/-- `operator <` -/
def operator_lt (lhs rhs : TimeStamp) : Bool :=
  decide (lhs.microsecondsSinceEpoch < rhs.microsecondsSinceEpoch)

/-- `operator >` -/
def operator_gt (lhs rhs : TimeStamp) : Bool :=
  decide (lhs.microsecondsSinceEpoch > rhs.microsecondsSinceEpoch)

/-- `operator <=` -/
def operator_le (lhs rhs : TimeStamp) : Bool :=
  decide (lhs.microsecondsSinceEpoch ≤ rhs.microsecondsSinceEpoch)

/-- `operator >=` -/
def operator_ge (lhs rhs : TimeStamp) : Bool :=
  decide (lhs.microsecondsSinceEpoch ≥ rhs.microsecondsSinceEpoch)

/-- `operator ==` -/
def operator_eq (lhs rhs : TimeStamp) : Bool :=
  decide (lhs.microsecondsSinceEpoch = rhs.microsecondsSinceEpoch)

/-- `operator !=` -/
def operator_ne (lhs rhs : TimeStamp) : Bool :=
  decide (lhs.microsecondsSinceEpoch ≠ rhs.microsecondsSinceEpoch)

/-! ## Formatted output

The header formats through `snprintf`.  The conversions it uses are `%lld`, `%06lld`
(in `toString`) and `%4d`, `%02d`, `%06d` (in `toFormattedString`): a signed decimal
rendering, padded on the left up to a minimum field width, with zeros after the sign when
the `0` flag is given and with blanks before the sign otherwise. -/

/-- The digit loop of an integer conversion: the decimal digits of `n`, least significant
first; the first argument bounds the number of iterations. -/
def digitsAux : Nat → Nat → List Char
  | 0, _ => []
  | f + 1, n => if n = 0 then [] else Nat.digitChar (n % 10) :: digitsAux f (n / 10)

/-- Decimal rendering of a magnitude, most significant digit first; zero renders as `0`. -/
def decDigits (n : Nat) : List Char :=
  if n = 0 then ['0'] else (digitsAux n n).reverse

/-- The conversion `%d` / `%lld` with an optional `0` flag and a minimum field width. -/
def fmtInt (zeroFlag : Bool) (width : Nat) (x : Int) : List Char :=
  let sign : List Char := if x < 0 then ['-'] else []
  let digs := decDigits x.natAbs
  let pad := width - (sign.length + digs.length)
  if zeroFlag then sign ++ (List.replicate pad '0' ++ digs)
  else List.replicate pad ' ' ++ (sign ++ digs)

/-- The call `snprintf(buff, size, ...)` stores at most `size - 1` characters of the
formatted text (and a terminating NUL). -/
def snprintf (size : Nat) (text : List Char) : List Char := text.take (size - 1)

namespace TimeStamp

/-- `std::string toString() const`, format `"%lld.%06lld"` into `char buff[32]` with the
size argument `sizeof(buff) - 1`. -/
def toString (ts : TimeStamp) : String :=
  let seconds := Int.tdiv ts.microsecondsSinceEpoch_ kMicrosecondsPerSecond
  let microseconds := Int.tmod ts.microsecondsSinceEpoch_ kMicrosecondsPerSecond
  String.mk (snprintf (32 - 1) (fmtInt false 0 seconds ++ ('.' :: fmtInt true 6 microseconds)))

end TimeStamp

/-- The members of `std::tm` that `toFormattedString` reads; all of them are `int`. -/
structure Tm where
  tm_sec : Int
  tm_min : Int
  tm_hour : Int
  tm_mday : Int
  tm_mon : Int
  tm_year : Int
deriving DecidableEq, Repr

/-- The ranges in which `std::localtime` leaves the members of a `std::tm`: seconds
`0..60`, minutes `0..59`, hours `0..23`, day of the month `1..31`, months since January
`0..11`, and years since 1900 as any `int`. -/
def Tm.isBrokenDown (t : Tm) : Prop :=
  (0 ≤ t.tm_sec ∧ t.tm_sec ≤ 60) ∧ (0 ≤ t.tm_min ∧ t.tm_min ≤ 59) ∧
    (0 ≤ t.tm_hour ∧ t.tm_hour ≤ 23) ∧ (1 ≤ t.tm_mday ∧ t.tm_mday ≤ 31) ∧
    (0 ≤ t.tm_mon ∧ t.tm_mon ≤ 11) ∧ isInt32 t.tm_year

instance (t : Tm) : Decidable t.isBrokenDown := by
  unfold Tm.isBrokenDown
  exact inferInstance

/-- What `toFormattedString` receives from `system_clock::now()` and `std::localtime`: a
broken-down reading of the system clock.  The system clock counts upwards from the epoch
(1 January 1970, 00:00 UTC), so in every time zone the local year of a reading is 1969
or later, that is `tm_year ≥ 69`. -/
def Tm.isClockReading (t : Tm) : Prop := t.isBrokenDown ∧ 69 ≤ t.tm_year

instance (t : Tm) : Decidable t.isClockReading := by
  unfold Tm.isClockReading
  exact inferInstance

namespace TimeStamp

/-- `std::string toFormattedString(bool showMicroseconds = true) const`.  The reading of
the system clock, broken down by `std::localtime`, is the argument `tm_time`; the
formats are `"%4d-%02d-%02d %02d:%02d:%02d.%06d"` and `"%4d-%02d-%02d %02d:%02d:%02d"`,
written into `char buff[64]` with the size argument `sizeof(buff)`. -/
def toFormattedString (ts : TimeStamp) (tm_time : Tm) (showMicroseconds : Bool) : String :=
  if showMicroseconds then
    let microseconds := wrap32 (Int.tmod ts.microsecondsSinceEpoch_ kMicrosecondsPerSecond)
    String.mk (snprintf 64
      (fmtInt false 4 (wrap32 (tm_time.tm_year + 1900)) ++ '-' ::
        (fmtInt true 2 (wrap32 (tm_time.tm_mon + 1)) ++ '-' ::
          (fmtInt true 2 tm_time.tm_mday ++ ' ' ::
            (fmtInt true 2 tm_time.tm_hour ++ ':' ::
              (fmtInt true 2 tm_time.tm_min ++ ':' ::
                (fmtInt true 2 tm_time.tm_sec ++ '.' ::
                  fmtInt true 6 microseconds)))))))
  else
    String.mk (snprintf 64
      (fmtInt false 4 (wrap32 (tm_time.tm_year + 1900)) ++ '-' ::
        (fmtInt true 2 (wrap32 (tm_time.tm_mon + 1)) ++ '-' ::
          (fmtInt true 2 tm_time.tm_mday ++ ' ' ::
            (fmtInt true 2 tm_time.tm_hour ++ ':' ::
              (fmtInt true 2 tm_time.tm_min ++ ':' ::
                fmtInt true 2 tm_time.tm_sec))))))

end TimeStamp

/-! ## binary64

`TimeDifference` and `AddTime` compute in `double`.  A finite binary64 value is kept as
sign, integer significand and binary exponent, and every operation rounds its exact
result to 53 significant bits, to nearest with ties to even.  The exponent is not
bounded in this model, so it describes binary64 wherever no overflow to infinity and no
gradual underflow occurs: that is the case for every quotient `TimeDifference` forms
(magnitudes between `1e-6` and `2^63`), and in `AddTime` an overflowing product is out
of the `int64_t` range and an underflowing one truncates to zero in binary64 and in the
model alike. -/

/-- A finite binary64 value `(-1)^sign * mant * 2^exp`.  The operations below return
zero as `mant = 0, exp = 0` and every other value with `2^52 ≤ mant < 2^53`. -/
structure Double where
  sign : Bool
  mant : Nat
  exp : Int
deriving DecidableEq, Repr

/-- Number of binary digits of `n`, by repeated halving (the first argument bounds the
number of iterations). -/
def bitLengthAux : Nat → Nat → Nat
  | 0, _ => 0
  | f + 1, n => if n = 0 then 0 else bitLengthAux f (n / 2) + 1

/-- Number of binary digits of `n`: `0` for `0`, and `k` when `2^(k-1) ≤ n < 2^k`. -/
def bitLength (n : Nat) : Nat := bitLengthAux n n

/-- The exponent `e` at which the quotient of `a` by `d * 2^e` has exactly 53 binary
digits before the point; a negative `e` scales the numerator instead. -/
def binExp (a d : Nat) : Int :=
  let e0 : Int := (bitLength a : Int) - (bitLength d : Int) - 53
  if (a * 2 ^ (-e0).toNat) / (d * 2 ^ e0.toNat) < 2 ^ 53 then e0 else e0 + 1

/-- The quotient `n / m` rounded to the nearest integer, ties to the even one. -/
def roundDiv (n m : Nat) : Nat :=
  let q := n / m
  let r := n % m
  if m < 2 * r ∨ (2 * r = m ∧ q % 2 = 1) then q + 1 else q

/-- Rounds the positive rational `a / d` to 53 significant bits, to nearest, ties to
even: the result `(m, e)` stands for `m * 2^e`. -/
def roundPos (a d : Nat) : Nat × Int :=
  let e := binExp a d
  let q := roundDiv (a * 2 ^ (-e).toNat) (d * 2 ^ e.toNat)
  if q = 2 ^ 53 then (2 ^ 52, e + 1) else (q, e)

namespace Double

/-- The binary64 nearest to the decimal literal `± n / d`. -/
def ofRatio (negative : Bool) (n d : Nat) : Double :=
  if n = 0 then ⟨negative, 0, 0⟩
  else ⟨negative, (roundPos n d).1, (roundPos n d).2⟩

/-- `static_cast<double>(x)` for an integer `x`. -/
def ofInt (x : Int) : Double := ofRatio (decide (x < 0)) x.natAbs 1

/-- Unary minus. -/
def neg (x : Double) : Double := ⟨!x.sign, x.mant, x.exp⟩

/-- The product `x * y`, rounded. -/
def mul (x y : Double) : Double :=
  if x.mant = 0 ∨ y.mant = 0 then ⟨xor x.sign y.sign, 0, 0⟩
  else
    let r := roundPos (x.mant * y.mant) 1
    ⟨xor x.sign y.sign, r.1, r.2 + x.exp + y.exp⟩

/-- The quotient `x / y` for a divisor `y` other than zero, rounded. -/
def div (x y : Double) : Double :=
  if x.mant = 0 then ⟨xor x.sign y.sign, 0, 0⟩
  else
    let r := roundPos x.mant y.mant
    ⟨xor x.sign y.sign, r.1, r.2 + x.exp - y.exp⟩

/-- The comparison `x == y` of two values: equal magnitudes, and equal signs unless both
are zero (`-0.0 == 0.0`). -/
def eq (x y : Double) : Bool :=
  decide (x.mant * 2 ^ (x.exp - y.exp).toNat = y.mant * 2 ^ (y.exp - x.exp).toNat) &&
    (x.sign == y.sign || x.mant == 0)

/-- The comparison `x < 0.0`. -/
def isNegative (x : Double) : Bool := x.sign && x.mant != 0

/-- The exact value as a rational number. -/
def toRat (x : Double) : ℚ := (if x.sign then -1 else 1) * (x.mant : ℚ) * (2 : ℚ) ^ x.exp

/-- The integral part of `x`: the binary digits after the point are dropped. -/
def truncate (x : Double) : Int :=
  let t : Nat := if 0 ≤ x.exp then x.mant * 2 ^ x.exp.toNat else x.mant / 2 ^ (-x.exp).toNat
  if x.sign then -(t : Int) else (t : Int)

/-- `static_cast<int64_t>(x)`: the fractional part is discarded; the conversion is
undefined (`none`) when the integral part is not an `int64_t`. -/
def toInt64 (x : Double) : Option Int :=
  if isInt64 x.truncate then some x.truncate else none

/-- Truncation toward zero as the specification words it, on the exact rational value:
the floor of a non-negative value and the ceiling of a negative one.  It is compared
with `truncate`, the conversion of the code. -/
def truncTowardZero (x : Double) : Int :=
  if 0 ≤ x.toRat then ⌊x.toRat⌋ else ⌈x.toRat⌉

end Double

/-! ## Free functions -/

/-- `double TimeDifference(const TimeStamp& former, const TimeStamp& later)` -/
def TimeDifference (former later : TimeStamp) : Double :=
  let diff := wrap64 (former.microsecondsSinceEpoch - later.microsecondsSinceEpoch)
  Double.div (Double.ofInt diff) (Double.ofInt kMicrosecondsPerSecond)

/-- `TimeStamp AddTime(const TimeStamp& ts, double seconds)`; `none` when the conversion
of the product to `int64_t` is undefined. -/
def AddTime (ts : TimeStamp) (seconds : Double) : Option TimeStamp :=
  match Double.toInt64 (Double.mul seconds (Double.ofInt kMicrosecondsPerSecond)) with
  | none => none
  | some delta => some ⟨wrap64 (ts.microsecondsSinceEpoch + delta)⟩

/-! # Theorems -/

set_option maxRecDepth 8000

/-! ## 64-bit integers -/

theorem wrap64_of_isInt64 {x : Int} (h : isInt64 x) : wrap64 x = x := by
  unfold isInt64 at h
  unfold wrap64
  omega

theorem isInt64_wrap64 (x : Int) : isInt64 (wrap64 x) := by
  unfold isInt64 wrap64
  omega

/-! ## Construction and comparison -/

/-- C1: a TimeStamp built from the raw value `v` by the explicit constructor reads back
exactly `v` through `microsecondsSinceEpoch()`. -/
theorem microsecondsSinceEpoch_mk (v : Int) :
    (TimeStamp.mk v).microsecondsSinceEpoch = v := rfl

/-- C2, as stated, fails: the Unix time 9223372036855 is a 64-bit `time_t`, yet its
microsecond count leaves the 64-bit range and the stored value is not the product. -/
theorem fromUnixTime_overflow :
    isInt64 9223372036855 ∧
      (TimeStamp.fromUnixTime 9223372036855).microsecondsSinceEpoch
        ≠ 9223372036855 * 1000000 := by
  decide

/-- C2, amended: whenever the product `s * 1_000_000` is representable in 64 bits,
`fromUnixTime(s).microsecondsSinceEpoch()` is that product. -/
theorem fromUnixTime_of_fits (s : Int) (h : isInt64 (s * 1000000)) :
    (TimeStamp.fromUnixTime s).microsecondsSinceEpoch = s * 1000000 := by
  have hk : kMicrosecondsPerSecond = 1000000 := by decide
  simp only [TimeStamp.fromUnixTime, TimeStamp.microsecondsSinceEpoch, hk]
  exact wrap64_of_isInt64 h

theorem fromUnixTime_of_fits_witness :
    isInt64 (-5 * 1000000) ∧
      (TimeStamp.fromUnixTime (-5)).microsecondsSinceEpoch = -5 * 1000000 :=
  ⟨by decide, fromUnixTime_of_fits (-5) (by decide)⟩

/-- C3: for every pair of TimeStamps exactly one of `a < b`, `a == b`, `a > b` holds, and
`a <= b` holds if and only if `a < b` or `a == b`. -/
theorem operators_total_order (a b : TimeStamp) :
    ((operator_lt a b = true ∧ operator_eq a b = false ∧ operator_gt a b = false) ∨
      (operator_lt a b = false ∧ operator_eq a b = true ∧ operator_gt a b = false) ∨
      (operator_lt a b = false ∧ operator_eq a b = false ∧ operator_gt a b = true)) ∧
    (operator_le a b = true ↔ (operator_lt a b = true ∨ operator_eq a b = true)) := by
  simp only [operator_lt, operator_eq, operator_gt, operator_le, decide_eq_true_eq,
    decide_eq_false_iff_not]
  omega

/-! ## Decimal rendering -/

theorem digitsAux_zero (f : Nat) : digitsAux f 0 = [] := by
  cases f <;> simp [digitsAux]

theorem digitsAux_fuel : ∀ (f g n : Nat), n ≤ f → n ≤ g → digitsAux f n = digitsAux g n := by
  intro f
  induction f with
  | zero =>
    intro g n hf _
    have hn : n = 0 := by omega
    subst hn
    rw [digitsAux_zero, digitsAux_zero]
  | succ f ih =>
    intro g n hf hg
    cases g with
    | zero =>
      have hn : n = 0 := by omega
      subst hn
      rw [digitsAux_zero, digitsAux_zero]
    | succ g =>
      by_cases hn : n = 0
      · subst hn
        rw [digitsAux_zero, digitsAux_zero]
      · simp only [digitsAux, hn, if_false]
        rw [ih g (n / 10) (by omega) (by omega)]

theorem digitsAux_pos {f n : Nat} (hn : n ≠ 0) (hf : n ≤ f) :
    digitsAux f n = Nat.digitChar (n % 10) :: digitsAux (n / 10) (n / 10) := by
  cases f with
  | zero => omega
  | succ f =>
    simp only [digitsAux, hn, if_false]
    rw [digitsAux_fuel f (n / 10) (n / 10) (by omega) (Nat.le_refl _)]

theorem decDigits_lt_ten {n : Nat} (h : n < 10) : decDigits n = [Nat.digitChar n] := by
  by_cases hn : n = 0
  · subst hn
    decide
  · have h0 : n / 10 = 0 := by omega
    have h1 : n % 10 = n := by omega
    simp [decDigits, hn, digitsAux_pos hn (Nat.le_refl n), h0, h1, digitsAux_zero]

theorem decDigits_ge_ten {n : Nat} (h : 10 ≤ n) :
    decDigits n = decDigits (n / 10) ++ [Nat.digitChar (n % 10)] := by
  have hn : n ≠ 0 := by omega
  have h0 : n / 10 ≠ 0 := by omega
  simp [decDigits, hn, h0, digitsAux_pos hn (Nat.le_refl n)]

/-- The rendering of `fmtInt` agrees with the decimal rendering `Nat.repr` of Lean. -/
theorem toDigitsCore_eq_decDigits : ∀ (fuel n : Nat) (ds : List Char), n < fuel →
    Nat.toDigitsCore 10 fuel n ds = decDigits n ++ ds := by
  intro fuel
  induction fuel with
  | zero => intro n ds h; omega
  | succ fuel ih =>
    intro n ds h
    by_cases h0 : n / 10 = 0
    · have hlt : n < 10 := by omega
      have h1 : n % 10 = n := by omega
      simp [Nat.toDigitsCore, h0, h1, decDigits_lt_ten hlt]
    · have hge : 10 ≤ n := by omega
      simp only [Nat.toDigitsCore, h0, if_false]
      rw [ih (n / 10) _ (by omega), decDigits_ge_ten hge]
      simp

theorem mk_decDigits (n : Nat) : String.mk (decDigits n) = Nat.repr n := by
  simp [Nat.repr, Nat.toDigits, List.asString, toDigitsCore_eq_decDigits (n + 1) n [] (by omega)]

theorem decDigits_length_le {n k : Nat} (hk : 0 < k) (h : n < 10 ^ k) :
    (decDigits n).length ≤ k := by
  have := Nat.repr_length n k hk h
  rw [← mk_decDigits] at this
  simpa [String.length] using this

theorem decDigits_length_pos (n : Nat) : 0 < (decDigits n).length := by
  by_cases h : n < 10
  · rw [decDigits_lt_ten h]
    simp
  · rw [decDigits_ge_ten (by omega)]
    simp

theorem isDigit_digitChar : ∀ d, d < 10 → (Nat.digitChar d).isDigit = true := by decide

theorem digitChar_ne_dot : ∀ d, d < 10 → Nat.digitChar d ≠ '.' := by decide

theorem decDigits_isDigit : ∀ (k n : Nat), n < 10 ^ k → ∀ c ∈ decDigits n, c.isDigit = true := by
  intro k
  induction k with
  | zero =>
    intro n h c hc
    have hn : n = 0 := by simpa using h
    subst hn
    rw [decDigits_lt_ten (by decide)] at hc
    simp only [List.mem_singleton] at hc
    subst hc
    decide
  | succ k ih =>
    intro n h c hc
    by_cases hlt : n < 10
    · rw [decDigits_lt_ten hlt] at hc
      simp only [List.mem_singleton] at hc
      subst hc
      exact isDigit_digitChar n hlt
    · rw [decDigits_ge_ten (by omega)] at hc
      simp only [List.mem_append, List.mem_singleton] at hc
      rcases hc with hc | hc
      · refine ih (n / 10) ?_ c hc
        rw [Nat.pow_succ] at h
        omega
      · subst hc
        exact isDigit_digitChar _ (Nat.mod_lt _ (by decide))

theorem decDigits_all_isDigit (n : Nat) : ∀ c ∈ decDigits n, c.isDigit = true :=
  decDigits_isDigit n n (Nat.lt_pow_self (by decide) n)

theorem pad_digitsAux : ∀ (k r f : Nat), r < 10 ^ k → r ≤ f →
    List.replicate (k - (digitsAux f r).length) '0' ++ (digitsAux f r).reverse
      = (List.range k).reverse.map (fun i => Nat.digitChar (r / 10 ^ i % 10)) := by
  intro k
  induction k with
  | zero =>
    intro r f h _
    have hr : r = 0 := by simpa using h
    subst hr
    simp [digitsAux_zero]
  | succ k ih =>
    intro r f h hf
    have hlt : r / 10 < 10 ^ k := by
      rw [Nat.pow_succ] at h
      omega
    have step : List.replicate (k + 1 - (digitsAux f r).length) '0' ++ (digitsAux f r).reverse
        = (List.replicate (k - (digitsAux (r / 10) (r / 10)).length) '0'
            ++ (digitsAux (r / 10) (r / 10)).reverse) ++ [Nat.digitChar (r % 10)] := by
      by_cases hr : r = 0
      · subst hr
        simp only [digitsAux_zero, Nat.zero_div, List.length_nil, List.reverse_nil,
          List.append_nil, Nat.sub_zero, Nat.zero_mod]
        exact List.replicate_succ' k '0'
      · rw [digitsAux_pos hr hf]
        simp
    rw [step, ih (r / 10) (r / 10) hlt (Nat.le_refl _), List.range_succ_eq_map]
    simp [Nat.pow_succ, Nat.div_div_eq_div_mul, Nat.mul_comm]

theorem pad_decDigits {k r : Nat} (hk : 0 < k) (h : r < 10 ^ k) :
    List.replicate (k - (decDigits r).length) '0' ++ decDigits r
      = (List.range k).reverse.map (fun i => Nat.digitChar (r / 10 ^ i % 10)) := by
  rw [← pad_digitsAux k r r h (Nat.le_refl r)]
  by_cases hr : r = 0
  · subst hr
    obtain ⟨j, rfl⟩ : ∃ j, k = j + 1 := ⟨k - 1, by omega⟩
    simp only [digitsAux_zero, List.length_nil, List.reverse_nil, List.append_nil, Nat.sub_zero]
    rw [decDigits_lt_ten (by decide)]
    exact (List.replicate_succ' j '0').symm
  · simp [decDigits, hr]

theorem pad_six {r : Nat} (h : r < 1000000) :
    List.replicate (6 - (decDigits r).length) '0' ++ decDigits r
      = [Nat.digitChar (r / 100000 % 10), Nat.digitChar (r / 10000 % 10),
         Nat.digitChar (r / 1000 % 10), Nat.digitChar (r / 100 % 10),
         Nat.digitChar (r / 10 % 10), Nat.digitChar (r % 10)] := by
  have h6 : List.range 6 = [0, 1, 2, 3, 4, 5] := by decide
  rw [pad_decDigits (by decide) (by simpa using h), h6]
  simp

/-! ## `toString` -/

theorem fmtInt_natCast (zeroFlag : Bool) (width n : Nat) :
    fmtInt zeroFlag width (n : Int)
      = List.replicate (width - (decDigits n).length) (if zeroFlag then '0' else ' ')
          ++ decDigits n := by
  have h : ¬ ((n : Int) < 0) := by omega
  cases zeroFlag <;> simp [fmtInt, h]

/-- The text `toString()` builds for a non-negative count `n` of microseconds. -/
theorem toString_natCast (n : Nat) (h : n < 2 ^ 63) :
    TimeStamp.toString ⟨(n : Int)⟩
      = String.mk (decDigits (n / 1000000) ++ '.' ::
          [Nat.digitChar (n % 1000000 / 100000 % 10), Nat.digitChar (n % 1000000 / 10000 % 10),
           Nat.digitChar (n % 1000000 / 1000 % 10), Nat.digitChar (n % 1000000 / 100 % 10),
           Nat.digitChar (n % 1000000 / 10 % 10), Nat.digitChar (n % 1000000 % 10)]) := by
  have hs : Int.tdiv (n : Int) kMicrosecondsPerSecond = ((n / 1000000 : Nat) : Int) := rfl
  have hm : Int.tmod (n : Int) kMicrosecondsPerSecond = ((n % 1000000 : Nat) : Int) := rfl
  have hr : n % 1000000 < 1000000 := Nat.mod_lt _ (by decide)
  have hq : n / 1000000 < 10 ^ 13 := by
    have : (2 : Nat) ^ 63 = 9223372036854775808 := by decide
    have : (10 : Nat) ^ 13 = 10000000000000 := by decide
    omega
  have hlen := decDigits_length_le (by decide) hq
  simp only [TimeStamp.toString, hs, hm, fmtInt_natCast, snprintf, if_true, Nat.zero_sub,
    List.replicate_zero, List.nil_append, pad_six hr]
  rw [List.take_of_length_le]
  simp only [List.length_append, List.length_cons, List.length_nil]
  omega

theorem tdiv_neg_natCast (n : Nat) :
    Int.tdiv (-(n : Int)) kMicrosecondsPerSecond = -((n / 1000000 : Nat) : Int) := by
  rw [Int.neg_tdiv]
  rfl

theorem tmod_neg_natCast (n : Nat) :
    Int.tmod (-(n : Int)) kMicrosecondsPerSecond = -((n % 1000000 : Nat) : Int) := by
  have h1 : Int.tmod (n : Int) kMicrosecondsPerSecond = ((n % 1000000 : Nat) : Int) := rfl
  rw [Int.tmod_def, Int.neg_tdiv, ← h1, Int.tmod_def]
  ring

/-- Every `int64_t` is `n` or `-n` for a natural number `n ≤ 2^63`. -/
theorem isInt64_cases {v : Int} (h : isInt64 v) :
    (∃ n : Nat, n < 2 ^ 63 ∧ v = (n : Int)) ∨ (∃ n : Nat, 0 < n ∧ n ≤ 2 ^ 63 ∧ v = -(n : Int)) := by
  unfold isInt64 at h
  by_cases h0 : 0 ≤ v
  · exact Or.inl ⟨v.toNat, by omega, by omega⟩
  · exact Or.inr ⟨(-v).toNat, by omega, by omega, by omega⟩

theorem fmtInt_length_le (zeroFlag : Bool) (width : Nat) (x : Int) (k : Nat) (hk : 0 < k)
    (h : x.natAbs < 10 ^ k) : (fmtInt zeroFlag width x).length ≤ max width (k + 1) := by
  have hlen := decDigits_length_le hk h
  cases zeroFlag <;> by_cases hx : x < 0 <;>
    simp only [fmtInt, hx, if_true, if_false, List.length_append, List.length_replicate,
      List.length_cons, List.length_nil, Bool.false_eq_true] <;> omega

/-- The 30 characters that `snprintf` may store are never exceeded: `toString()` returns
the whole formatted text. -/
theorem toString_eq (v : Int) (h : isInt64 v) :
    TimeStamp.toString ⟨v⟩
      = String.mk (fmtInt false 0 (Int.tdiv v kMicrosecondsPerSecond) ++
          '.' :: fmtInt true 6 (Int.tmod v kMicrosecondsPerSecond)) := by
  have h13 : (10 : Nat) ^ 13 = 10000000000000 := by decide
  have h6 : (10 : Nat) ^ 6 = 1000000 := by decide
  have h63 : (2 : Nat) ^ 63 = 9223372036854775808 := by decide
  have hbound : (Int.tdiv v kMicrosecondsPerSecond).natAbs < 10 ^ 13 ∧
      (Int.tmod v kMicrosecondsPerSecond).natAbs < 10 ^ 6 := by
    rcases isInt64_cases h with ⟨n, hn, rfl⟩ | ⟨n, _, hn, rfl⟩
    · have hs : Int.tdiv (n : Int) kMicrosecondsPerSecond = ((n / 1000000 : Nat) : Int) := rfl
      have hm : Int.tmod (n : Int) kMicrosecondsPerSecond = ((n % 1000000 : Nat) : Int) := rfl
      rw [hs, hm]
      omega
    · rw [tdiv_neg_natCast, tmod_neg_natCast]
      omega
  have l1 := fmtInt_length_le false 0 _ 13 (by decide) hbound.1
  have l2 := fmtInt_length_le true 6 _ 6 (by decide) hbound.2
  simp only [TimeStamp.toString, snprintf]
  rw [List.take_of_length_le]
  simp only [List.length_append, List.length_cons]
  omega

/-- C8: for a non-negative raw value `v`, `toString()` is the decimal rendering of
`v / 1_000_000`, then `.`, then the six decimal digits of `v mod 1_000_000` (zeros on the
left included). -/
theorem toString_nonneg (v : Int) (h0 : 0 ≤ v) (h : isInt64 v) :
    TimeStamp.toString ⟨v⟩
      = Nat.repr (v.toNat / 1000000) ++ "." ++
          String.mk [Nat.digitChar (v.toNat % 1000000 / 100000 % 10),
            Nat.digitChar (v.toNat % 1000000 / 10000 % 10),
            Nat.digitChar (v.toNat % 1000000 / 1000 % 10),
            Nat.digitChar (v.toNat % 1000000 / 100 % 10),
            Nat.digitChar (v.toNat % 1000000 / 10 % 10),
            Nat.digitChar (v.toNat % 1000000 % 10)] := by
  obtain ⟨n, rfl⟩ := Int.eq_ofNat_of_zero_le h0
  have hn : n < 2 ^ 63 := by
    have := h.2
    omega
  rw [toString_natCast n hn, ← mk_decDigits]
  apply String.ext
  simp

theorem toString_nonneg_witness :
    (0 : Int) ≤ 12345678 ∧ isInt64 12345678 ∧ TimeStamp.toString ⟨12345678⟩ = "12.345678" :=
  ⟨by decide, by decide, (toString_nonneg 12345678 (by decide) (by decide)).trans (by decide)⟩

theorem decDigits_ne_dot (n : Nat) : ∀ c ∈ decDigits n, c ≠ '.' := by
  intro c hc hdot
  have := decDigits_all_isDigit n c hc
  rw [hdot] at this
  exact absurd this (by decide)

theorem mem_fmtInt {zeroFlag : Bool} {width : Nat} {x : Int} {c : Char}
    (hc : c ∈ fmtInt zeroFlag width x) :
    c = '-' ∨ c = '0' ∨ c = ' ' ∨ c ∈ decDigits x.natAbs := by
  cases zeroFlag <;> by_cases hx : x < 0 <;>
    simp only [fmtInt, hx, if_true, if_false, List.mem_append, List.mem_replicate,
      List.mem_cons, List.mem_nil_iff, Bool.false_eq_true, or_false, false_or] at hc <;>
    tauto

theorem fmtInt_ne_dot (zeroFlag : Bool) (width : Nat) (x : Int) :
    ∀ c ∈ fmtInt zeroFlag width x, c ≠ '.' := by
  intro c hc
  rcases mem_fmtInt hc with h | h | h | h
  · rw [h]; decide
  · rw [h]; decide
  · rw [h]; decide
  · exact decDigits_ne_dot _ c h

/-- C9, as stated, fails: the raw value `-1` renders as `0.-00001`, and the text after
the `.` is not six decimal digits. -/
theorem toString_negative_remainder :
    isInt64 (-1) ∧ TimeStamp.toString ⟨-1⟩ = "0.-00001" ∧
      ¬ ∃ sec frac : List Char, (TimeStamp.toString ⟨-1⟩).data = sec ++ '.' :: frac ∧
          '.' ∉ sec ∧ frac.length = 6 ∧ ∀ c ∈ frac, c.isDigit = true := by
  have hs : TimeStamp.toString ⟨-1⟩ = "0.-00001" := by decide
  refine ⟨by decide, hs, ?_⟩
  rintro ⟨sec, frac, hd, hdot, -, hdig⟩
  rw [hs] at hd
  have hdata : ("0.-00001" : String).data = ['0', '.', '-', '0', '0', '0', '0', '1'] := rfl
  rw [hdata] at hd
  match sec, hd, hdot with
  | [], hd, _ =>
    simp only [List.nil_append, List.cons.injEq] at hd
    exact absurd hd.1 (by decide)
  | [_], hd, _ =>
    simp only [List.singleton_append, List.cons.injEq] at hd
    have hmem : '-' ∈ frac := by
      rw [← hd.2.2]
      simp
    exact absurd (hdig '-' hmem) (by decide)
  | _ :: c :: rest, hd, hdot =>
    simp only [List.cons_append, List.cons.injEq] at hd
    apply hdot
    rw [← hd.2.1]
    simp

/-- C9, amended: for every 64-bit raw value whose remainder `v % 1_000_000` (the
truncating remainder of the code) is not negative, `toString()` is the rendering of the
seconds, a `.`, and exactly six decimal digit characters. -/
theorem toString_fraction_digits (v : Int) (h : isInt64 v)
    (hr : 0 ≤ Int.tmod v kMicrosecondsPerSecond) :
    ∃ sec frac : List Char, (TimeStamp.toString ⟨v⟩).data = sec ++ '.' :: frac ∧
      sec = fmtInt false 0 (TimeStamp.secondsSinceEpoch ⟨v⟩) ∧
      '.' ∉ sec ∧ frac.length = 6 ∧ ∀ c ∈ frac, c.isDigit = true := by
  refine ⟨fmtInt false 0 (Int.tdiv v kMicrosecondsPerSecond),
    fmtInt true 6 (Int.tmod v kMicrosecondsPerSecond), ?_, rfl, ?_, ?_⟩
  · rw [toString_eq v h]
  · exact fun hmem => fmtInt_ne_dot _ _ _ _ hmem rfl
  · obtain ⟨m, hm⟩ := Int.eq_ofNat_of_zero_le hr
    have hlt : Int.tmod v kMicrosecondsPerSecond < kMicrosecondsPerSecond :=
      Int.tmod_lt_of_pos v (by decide)
    have hk : kMicrosecondsPerSecond = 1000000 := by decide
    have hm6 : m < 1000000 := by
      rw [hm, hk] at hlt
      omega
    rw [hm, fmtInt_natCast, if_pos rfl, pad_six hm6]
    refine ⟨rfl, ?_⟩
    intro c hc
    simp only [List.mem_cons, List.mem_nil_iff, or_false] at hc
    rcases hc with hc | hc | hc | hc | hc | hc <;> rw [hc] <;>
      exact isDigit_digitChar _ (Nat.mod_lt _ (by decide))

theorem toString_fraction_digits_witness :
    isInt64 (-3000000) ∧ 0 ≤ Int.tmod (-3000000) kMicrosecondsPerSecond ∧
      ∃ sec frac : List Char, (TimeStamp.toString ⟨-3000000⟩).data = sec ++ '.' :: frac ∧
        sec = fmtInt false 0 (TimeStamp.secondsSinceEpoch ⟨-3000000⟩) ∧
        '.' ∉ sec ∧ frac.length = 6 ∧ ∀ c ∈ frac, c.isDigit = true :=
  ⟨by decide, by decide, toString_fraction_digits (-3000000) (by decide) (by decide)⟩

/-- C10: for a whole-second Unix time `s ≥ 0` whose microsecond count fits in 64 bits,
`fromUnixTime(s).toString()` is the decimal rendering of `s` followed by `.000000`. -/
theorem toString_fromUnixTime (s : Int) (h0 : 0 ≤ s) (h : isInt64 (s * 1000000)) :
    TimeStamp.toString (TimeStamp.fromUnixTime s) = Nat.repr s.toNat ++ ".000000" := by
  obtain ⟨n, rfl⟩ := Int.eq_ofNat_of_zero_le h0
  have hk : kMicrosecondsPerSecond = 1000000 := by decide
  have hn : n * 1000000 < 2 ^ 63 := by
    have := h.2
    omega
  have hcast : ((n : Int) * 1000000) = ((n * 1000000 : Nat) : Int) := by push_cast; rfl
  have hq : n * 1000000 / 1000000 = n := Nat.mul_div_cancel n (by decide)
  have hz : n * 1000000 % 1000000 = 0 := Nat.mul_mod_left n 1000000
  rw [TimeStamp.fromUnixTime, hk, wrap64_of_isInt64 h, hcast, toString_natCast _ hn, hq, hz,
    ← mk_decDigits]
  apply String.ext
  simp only [Int.toNat_ofNat, String.data_append]
  rfl

theorem toString_fromUnixTime_witness :
    (TimeStamp.fromUnixTime 0).microsecondsSinceEpoch = 0 ∧
      TimeStamp.toString (TimeStamp.fromUnixTime 0) = "0.000000" ∧
      TimeStamp.fromUnixTime 1 = ⟨1000000⟩ ∧
      TimeStamp.toString ⟨1000000⟩ = "1.000000" :=
  ⟨by decide, (toString_fromUnixTime 0 (by decide) (by decide)).trans (by decide), by decide,
    (toString_fromUnixTime 1 (by decide) (by decide)).trans (by decide)⟩

/-! ## Rounding to 53 bits -/

theorem bitLengthAux_zero (f : Nat) : bitLengthAux f 0 = 0 := by
  cases f <;> simp [bitLengthAux]

theorem bitLengthAux_spec : ∀ (f n : Nat), 0 < n → n ≤ f →
    ∃ k, bitLengthAux f n = k + 1 ∧ 2 ^ k ≤ n ∧ n < 2 ^ (k + 1) := by
  intro f
  induction f with
  | zero => intro n h0 hf; omega
  | succ f ih =>
    intro n h0 hf
    have hn : n ≠ 0 := by omega
    simp only [bitLengthAux, hn, if_false]
    by_cases h2 : n / 2 = 0
    · refine ⟨0, ?_, ?_, ?_⟩
      · rw [h2, bitLengthAux_zero]
      · simpa using h0
      · simp only [Nat.zero_add, Nat.pow_one]
        omega
    · obtain ⟨k, hk, hlo, hhi⟩ := ih (n / 2) (by omega) (by omega)
      refine ⟨k + 1, by rw [hk], ?_, ?_⟩
      · rw [Nat.pow_succ]
        omega
      · rw [Nat.pow_succ]
        omega

theorem bitLength_spec {n : Nat} (h : 0 < n) :
    ∃ k, bitLength n = k + 1 ∧ 2 ^ k ≤ n ∧ n < 2 ^ (k + 1) :=
  bitLengthAux_spec n n h (Nat.le_refl n)

/-- The exponent chosen by `binExp` leaves a quotient with exactly 53 binary digits. -/
theorem binExp_spec {a d : Nat} (ha : 0 < a) (hd : 0 < d) :
    2 ^ 52 * (d * 2 ^ (binExp a d).toNat) ≤ a * 2 ^ (-(binExp a d)).toNat ∧
      a * 2 ^ (-(binExp a d)).toNat < 2 ^ 53 * (d * 2 ^ (binExp a d).toNat) := by
  obtain ⟨ka, hka, halo, hahi⟩ := bitLength_spec ha
  obtain ⟨kd, hkd, hdlo, hdhi⟩ := bitLength_spec hd
  -- the first guess `e0` leaves 53 or 54 binary digits
  have key : ∀ (e0 : Int), e0 = (bitLength a : Int) - (bitLength d : Int) - 53 →
      2 ^ 52 * (d * 2 ^ e0.toNat) ≤ a * 2 ^ (-e0).toNat ∧
        a * 2 ^ (-e0).toNat < 2 ^ 54 * (d * 2 ^ e0.toNat) := by
    intro e0 he0
    have hPQ : ka + (-e0).toNat = kd + 53 + e0.toNat := by
      rw [hka, hkd] at he0
      omega
    constructor
    · calc 2 ^ 52 * (d * 2 ^ e0.toNat)
          ≤ 2 ^ 52 * (2 ^ (kd + 1) * 2 ^ e0.toNat) :=
            Nat.mul_le_mul_left _ (Nat.mul_le_mul_right _ (Nat.le_of_lt hdhi))
        _ = 2 ^ (kd + 53 + e0.toNat) := by ring
        _ = 2 ^ ka * 2 ^ (-e0).toNat := by rw [← hPQ, Nat.pow_add]
        _ ≤ a * 2 ^ (-e0).toNat := Nat.mul_le_mul_right _ halo
    · calc a * 2 ^ (-e0).toNat
          < 2 ^ (ka + 1) * 2 ^ (-e0).toNat :=
            Nat.mul_lt_mul_of_pos_right hahi (Nat.two_pow_pos _)
        _ = 2 ^ 54 * (2 ^ kd * 2 ^ e0.toNat) := by
            have : ka + 1 + (-e0).toNat = 54 + (kd + e0.toNat) := by omega
            rw [← Nat.pow_add, this, Nat.pow_add, Nat.pow_add]
        _ ≤ 2 ^ 54 * (d * 2 ^ e0.toNat) :=
            Nat.mul_le_mul_left _ (Nat.mul_le_mul_right _ hdlo)
  obtain ⟨hlo, hhi⟩ := key _ rfl
  unfold binExp
  simp only []
  generalize hE : (bitLength a : Int) - (bitLength d : Int) - 53 = e0 at hlo hhi ⊢
  have hDpos : 0 < d * 2 ^ e0.toNat := Nat.mul_pos hd (Nat.two_pow_pos _)
  by_cases hq : a * 2 ^ (-e0).toNat / (d * 2 ^ e0.toNat) < 2 ^ 53
  · rw [if_pos hq]
    refine ⟨hlo, ?_⟩
    rw [Nat.div_lt_iff_lt_mul hDpos] at hq
    exact hq
  · rw [if_neg hq]
    have hge : 2 ^ 53 * (d * 2 ^ e0.toNat) ≤ a * 2 ^ (-e0).toNat := by
      have := (Nat.le_div_iff_mul_le hDpos).1 (Nat.le_of_not_lt hq)
      exact this
    by_cases hs : 0 ≤ e0
    · have h1 : (-e0).toNat = 0 := by omega
      have h2 : (-(e0 + 1)).toNat = 0 := by omega
      have h3 : (e0 + 1).toNat = e0.toNat + 1 := by omega
      have hp : d * 2 ^ (e0.toNat + 1) = 2 * (d * 2 ^ e0.toNat) := by
        rw [Nat.pow_succ]
        ring
      rw [h2, h3, hp]
      rw [h1] at hge hhi
      constructor <;> omega
    · have h1 : e0.toNat = 0 := by omega
      have h2 : (e0 + 1).toNat = 0 := by omega
      have h3 : (-e0).toNat = (-(e0 + 1)).toNat + 1 := by omega
      have hp : a * 2 ^ ((-(e0 + 1)).toNat + 1) = 2 * (a * 2 ^ (-(e0 + 1)).toNat) := by
        rw [Nat.pow_succ]
        ring
      rw [h2]
      rw [h1, h3, hp] at hge hhi
      constructor <;> omega

theorem roundDiv_ge (n m : Nat) : n / m ≤ roundDiv n m := by
  unfold roundDiv
  simp only []
  split_ifs <;> omega

theorem roundDiv_le (n m : Nat) : roundDiv n m ≤ n / m + 1 := by
  unfold roundDiv
  simp only []
  split_ifs <;> omega

/-- The significand returned by `roundPos` is normalised. -/
theorem roundPos_mant {a d : Nat} (ha : 0 < a) (hd : 0 < d) :
    2 ^ 52 ≤ (roundPos a d).1 ∧ (roundPos a d).1 < 2 ^ 53 := by
  obtain ⟨hlo, hhi⟩ := binExp_spec ha hd
  have hDpos : 0 < d * 2 ^ (binExp a d).toNat := Nat.mul_pos hd (Nat.two_pow_pos _)
  have hq1 : 2 ^ 52 ≤ a * 2 ^ (-(binExp a d)).toNat / (d * 2 ^ (binExp a d).toNat) :=
    (Nat.le_div_iff_mul_le hDpos).2 hlo
  have hq2 : a * 2 ^ (-(binExp a d)).toNat / (d * 2 ^ (binExp a d).toNat) < 2 ^ 53 :=
    (Nat.div_lt_iff_lt_mul hDpos).2 hhi
  have h1 := roundDiv_ge (a * 2 ^ (-(binExp a d)).toNat) (d * 2 ^ (binExp a d).toNat)
  have h2 := roundDiv_le (a * 2 ^ (-(binExp a d)).toNat) (d * 2 ^ (binExp a d).toNat)
  unfold roundPos
  simp only []
  split_ifs with hq
  · exact ⟨Nat.le_refl _, by norm_num⟩
  · simp only []
    omega

/-- The integer returned by `roundDiv` is within one half of the exact quotient. -/
theorem roundDiv_error (n m : Nat) (hm : 0 < m) :
    |(n : ℚ) / m - (roundDiv n m : ℚ)| ≤ 1 / 2 := by
  have hmq : (0 : ℚ) < (m : ℚ) := by exact_mod_cast hm
  have hdm : (n : ℚ) = (m : ℚ) * ((n / m : Nat) : ℚ) + ((n % m : Nat) : ℚ) := by
    exact_mod_cast (Nat.div_add_mod n m).symm
  have hr : n % m < m := Nat.mod_lt n hm
  have hrq : ((n % m : Nat) : ℚ) < (m : ℚ) := by exact_mod_cast hr
  have hr0 : (0 : ℚ) ≤ ((n % m : Nat) : ℚ) := by positivity
  have hquot : (n : ℚ) / m = ((n / m : Nat) : ℚ) + ((n % m : Nat) : ℚ) / m := by
    rw [hdm]
    field_simp
    ring
  unfold roundDiv
  simp only []
  rw [hquot]
  split_ifs with h
  · have h2 : m ≤ 2 * (n % m) := by omega
    have h2q : (m : ℚ) ≤ 2 * ((n % m : Nat) : ℚ) := by exact_mod_cast h2
    push_cast
    rw [abs_le]
    constructor
    · rw [show ((n / m : Nat) : ℚ) + ((n % m : Nat) : ℚ) / m - (((n / m : Nat) : ℚ) + 1)
        = ((n % m : Nat) : ℚ) / m - 1 by ring]
      rw [le_sub_iff_add_le, le_div_iff₀ hmq]
      linarith
    · rw [show ((n / m : Nat) : ℚ) + ((n % m : Nat) : ℚ) / m - (((n / m : Nat) : ℚ) + 1)
        = ((n % m : Nat) : ℚ) / m - 1 by ring]
      rw [sub_le_iff_le_add, div_le_iff₀ hmq]
      linarith
  · have h2 : 2 * (n % m) ≤ m := by omega
    have h2q : 2 * ((n % m : Nat) : ℚ) ≤ (m : ℚ) := by exact_mod_cast h2
    rw [show ((n / m : Nat) : ℚ) + ((n % m : Nat) : ℚ) / m - ((n / m : Nat) : ℚ)
        = ((n % m : Nat) : ℚ) / m by ring]
    rw [abs_le]
    constructor
    · have : (0 : ℚ) ≤ ((n % m : Nat) : ℚ) / m := by positivity
      linarith
    · rw [div_le_iff₀ hmq]
      linarith

theorem two_zpow_split (e : Int) :
    ((2 : ℚ) ^ (-e).toNat) / ((2 : ℚ) ^ e.toNat) = ((2 : ℚ) ^ e)⁻¹ := by
  by_cases he : 0 ≤ e
  · obtain ⟨k, rfl⟩ := Int.eq_ofNat_of_zero_le he
    have h1 : (-(k : Int)).toNat = 0 := by omega
    simp [h1]
  · obtain ⟨k, hk⟩ : ∃ k : Nat, e = -(k : Int) := ⟨(-e).toNat, by omega⟩
    subst hk
    have h1 : (-(k : Int)).toNat = 0 := by omega
    simp [h1]

/-- The value returned by `roundPos` is within half a unit of the last place of the exact
quotient `a / d`. -/
theorem roundPos_error {a d : Nat} (hd : 0 < d) :
    |(a : ℚ) / d - ((roundPos a d).1 : ℚ) * (2 : ℚ) ^ (roundPos a d).2|
      ≤ (2 : ℚ) ^ (roundPos a d).2 / 2 := by
  have hdq : (0 : ℚ) < (d : ℚ) := by exact_mod_cast hd
  have hpos : ∀ z : Int, (0 : ℚ) < (2 : ℚ) ^ z := fun z => by positivity
  have hm : 0 < d * 2 ^ (binExp a d).toNat := Nat.mul_pos hd (Nat.two_pow_pos _)
  have herr := roundDiv_error (a * 2 ^ (-(binExp a d)).toNat) (d * 2 ^ (binExp a d).toNat) hm
  have hscale : (a : ℚ) / d
      = ((a * 2 ^ (-(binExp a d)).toNat : Nat) : ℚ) / ((d * 2 ^ (binExp a d).toNat : Nat) : ℚ)
          * (2 : ℚ) ^ (binExp a d) := by
    push_cast
    rw [mul_div_mul_comm, two_zpow_split, mul_assoc, inv_mul_cancel₀ (ne_of_gt (hpos _)), mul_one]
  have hbound : |(a : ℚ) / d
      - (roundDiv (a * 2 ^ (-(binExp a d)).toNat) (d * 2 ^ (binExp a d).toNat) : ℚ)
          * (2 : ℚ) ^ (binExp a d)| ≤ (2 : ℚ) ^ (binExp a d) / 2 := by
    rw [hscale, ← sub_mul, abs_mul, abs_of_pos (hpos _)]
    calc _ ≤ (1 / 2) * (2 : ℚ) ^ (binExp a d) :=
          mul_le_mul_of_nonneg_right herr (le_of_lt (hpos _))
      _ = (2 : ℚ) ^ (binExp a d) / 2 := by ring
  unfold roundPos
  simp only []
  split_ifs with hq
  · rw [hq] at hbound
    have h2 : (2 : ℚ) ^ (binExp a d + 1) = 2 * (2 : ℚ) ^ (binExp a d) := by
      rw [zpow_add_one₀ (by norm_num)]
      ring
    simp only []
    rw [h2]
    have h3 : ((2 ^ 52 : Nat) : ℚ) * (2 * (2 : ℚ) ^ (binExp a d))
        = ((2 ^ 53 : Nat) : ℚ) * (2 : ℚ) ^ (binExp a d) := by
      push_cast
      ring
    rw [h3]
    have := hpos (binExp a d)
    linarith
  · exact hbound
/-! ## binary64 operations -/

theorem ofInt_kMicrosecondsPerSecond :
    Double.ofInt kMicrosecondsPerSecond = ⟨false, 8589934592000000, -33⟩ := by decide

theorem Double.ofInt_zero : Double.ofInt 0 = ⟨false, 0, 0⟩ := by decide

theorem Double.ofInt_of_ne_zero {x : Int} (hx : x ≠ 0) :
    Double.ofInt x = ⟨decide (x < 0), (roundPos x.natAbs 1).1, (roundPos x.natAbs 1).2⟩ := by
  have h : x.natAbs ≠ 0 := by omega
  simp [Double.ofInt, Double.ofRatio, h]

theorem Double.ofInt_neg {x : Int} (hx : x ≠ 0) :
    Double.ofInt (-x) = Double.neg (Double.ofInt x) := by
  have hs : decide (-x < 0) = !decide (x < 0) := by
    by_cases h : x < 0
    · have h2 : ¬ (-x < 0) := by omega
      simp [h, h2]
    · have h2 : -x < 0 := by omega
      simp [h, h2]
  rw [Double.ofInt_of_ne_zero hx, Double.ofInt_of_ne_zero (by omega), Int.natAbs_neg, hs]
  rfl

theorem Double.div_neg_left (x y : Double) :
    Double.div (Double.neg x) y = Double.neg (Double.div x y) := by
  unfold Double.div Double.neg
  by_cases h : x.mant = 0
  · simp only [h, if_true]
    cases x.sign <;> cases y.sign <;> rfl
  · simp only [h, if_false]
    cases x.sign <;> cases y.sign <;> rfl

theorem Double.neg_neg (x : Double) : Double.neg (Double.neg x) = x := by
  cases x
  simp [Double.neg]

theorem Double.eq_self (x : Double) : Double.eq x x = true := by
  simp [Double.eq]

theorem wrap64_sub_comm (x y : Int) :
    wrap64 (y - x) = if wrap64 (x - y) = -(2 : Int) ^ 63 then -(2 : Int) ^ 63
      else -wrap64 (x - y) := by
  unfold wrap64
  split_ifs <;> omega

/-! ## `TimeDifference` -/

/-- C4, as stated, fails: for `a` the minimum `int64_t` and `b = 0` the 64-bit
difference `b - a` wraps, and `TimeDifference(a, b) == -TimeDifference(b, a)` is false. -/
theorem TimeDifference_not_antisymm :
    isInt64 (-2 ^ 63) ∧ isInt64 0 ∧
      Double.eq (TimeDifference ⟨-2 ^ 63⟩ ⟨0⟩)
        (Double.neg (TimeDifference ⟨0⟩ ⟨-2 ^ 63⟩)) = false := by
  decide

/-- C4, amended: `TimeDifference(a, b)` is the binary64 quotient of the 64-bit
(wrapping) difference of the raw values by `1e6`, and
`TimeDifference(a, b) == -TimeDifference(b, a)` holds exactly when that 64-bit
difference is not the minimum `int64_t`. -/
theorem TimeDifference_antisymm_iff (a b : TimeStamp) :
    TimeDifference a b
        = Double.div
            (Double.ofInt (wrap64 (a.microsecondsSinceEpoch - b.microsecondsSinceEpoch)))
            (Double.ofInt 1000000) ∧
      (Double.eq (TimeDifference a b) (Double.neg (TimeDifference b a)) = true ↔
        wrap64 (a.microsecondsSinceEpoch - b.microsecondsSinceEpoch) ≠ -(2 : Int) ^ 63) := by
  refine ⟨rfl, ?_⟩
  simp only [TimeDifference]
  rw [wrap64_sub_comm a.microsecondsSinceEpoch b.microsecondsSinceEpoch]
  generalize wrap64 (a.microsecondsSinceEpoch - b.microsecondsSinceEpoch) = d
  by_cases hmin : d = -(2 : Int) ^ 63
  · rw [if_pos hmin, hmin]
    constructor
    · intro h
      exact absurd h (by decide)
    · intro h
      exact absurd rfl h
  · rw [if_neg hmin]
    refine ⟨fun _ => hmin, fun _ => ?_⟩
    by_cases h0 : d = 0
    · subst h0
      decide
    · rw [Double.ofInt_neg h0, Double.div_neg_left, Double.neg_neg]
      exact Double.eq_self _

/-- C5, as stated, fails: the minimum `int64_t` is before the raw value `1`, the 64-bit
difference wraps to the maximum, and `TimeDifference` is positive. -/
theorem TimeDifference_positive_on_wrap :
    isInt64 (-2 ^ 63) ∧ isInt64 1 ∧ operator_lt ⟨-2 ^ 63⟩ ⟨1⟩ = true ∧
      Double.isNegative (TimeDifference ⟨-2 ^ 63⟩ ⟨1⟩) = false := by
  decide

/-- C5, amended: when `former < later` and the difference of the raw values is
representable in 64 bits, `TimeDifference(former, later)` is strictly negative. -/
theorem TimeDifference_negative (former later : TimeStamp)
    (hfit : isInt64 (former.microsecondsSinceEpoch - later.microsecondsSinceEpoch))
    (hlt : operator_lt former later = true) :
    Double.isNegative (TimeDifference former later) = true := by
  simp only [operator_lt, decide_eq_true_eq] at hlt
  have hneg : former.microsecondsSinceEpoch - later.microsecondsSinceEpoch < 0 := by omega
  simp only [TimeDifference]
  rw [wrap64_of_isInt64 hfit]
  generalize former.microsecondsSinceEpoch - later.microsecondsSinceEpoch = d at hneg
  have hd0 : d ≠ 0 := by omega
  have hm := roundPos_mant (a := d.natAbs) (d := 1) (by omega) (by decide)
  have hm2 := roundPos_mant (a := (roundPos d.natAbs 1).1) (d := 8589934592000000)
    (by omega) (by decide)
  have hx : (roundPos d.natAbs 1).1 ≠ 0 := by omega
  have hy : (roundPos (roundPos d.natAbs 1).1 8589934592000000).1 ≠ 0 := by omega
  rw [Double.ofInt_of_ne_zero hd0, ofInt_kMicrosecondsPerSecond]
  simp [Double.div, Double.isNegative, hx, hy, hneg]

theorem TimeDifference_negative_witness :
    isInt64 ((TimeStamp.mk 1000000).microsecondsSinceEpoch
        - (TimeStamp.mk 2500000).microsecondsSinceEpoch) ∧
      operator_lt ⟨1000000⟩ ⟨2500000⟩ = true ∧
      Double.isNegative (TimeDifference ⟨1000000⟩ ⟨2500000⟩) = true :=
  ⟨by decide, by decide, TimeDifference_negative ⟨1000000⟩ ⟨2500000⟩ (by decide) (by decide)⟩

/-! ## `AddTime` -/

/-- The magnitude that `truncate` computes is the floor of the exact magnitude. -/
theorem floor_magnitude (m : Nat) (e : Int) :
    ⌊(m : ℚ) * (2 : ℚ) ^ e⌋
      = ((if 0 ≤ e then m * 2 ^ e.toNat else m / 2 ^ (-e).toNat : Nat) : Int) := by
  by_cases he : 0 ≤ e
  · obtain ⟨k, rfl⟩ := Int.eq_ofNat_of_zero_le he
    rw [if_pos he]
    simp only [Int.toNat_ofNat, zpow_natCast]
    have : ((m : ℚ) * (2 : ℚ) ^ k) = (((m * 2 ^ k : Nat) : Int) : ℚ) := by push_cast; ring
    rw [this, Int.floor_intCast]
  · rw [if_neg he]
    obtain ⟨k, hk⟩ : ∃ k : Nat, e = -(k : Int) := ⟨(-e).toNat, by omega⟩
    subst hk
    simp only [neg_neg, Int.toNat_ofNat, zpow_neg, zpow_natCast]
    have : ((m : ℚ) * ((2 : ℚ) ^ k)⁻¹) = (((m : Int) : ℚ) / ((2 ^ k : Nat) : ℚ)) := by
      push_cast
      rw [div_eq_mul_inv]
    rw [this, Rat.floor_intCast_div_natCast]
    norm_cast

/-- The conversion of the code discards the fractional part toward zero. -/
theorem Double.truncate_eq_truncTowardZero (x : Double) :
    x.truncate = x.truncTowardZero := by
  have hmag : (0 : ℚ) ≤ (x.mant : ℚ) * (2 : ℚ) ^ x.exp := by positivity
  have hfl := floor_magnitude x.mant x.exp
  unfold Double.truncate Double.truncTowardZero Double.toRat
  simp only []
  cases x.sign with
  | false =>
    simp only [Bool.false_eq_true, if_false, one_mul]
    rw [if_pos hmag, hfl]
  | true =>
    simp only [if_true, neg_mul, one_mul]
    by_cases h0 : (x.mant : ℚ) * (2 : ℚ) ^ x.exp = 0
    · rw [h0] at hfl
      simp only [Int.floor_zero] at hfl
      rw [h0, ← hfl]
      simp
    · have hpos : ¬ (0 : ℚ) ≤ -((x.mant : ℚ) * (2 : ℚ) ^ x.exp) := by
        intro h
        exact h0 (le_antisymm (by linarith) hmag)
      rw [if_neg hpos, Int.ceil_neg, hfl]

theorem AddTime_of_toInt64 {ts : TimeStamp} {seconds : Double} {delta : Int}
    (h : Double.toInt64 (Double.mul seconds (Double.ofInt kMicrosecondsPerSecond)) = some delta) :
    AddTime ts seconds = some ⟨wrap64 (ts.microsecondsSinceEpoch + delta)⟩ := by
  simp only [AddTime, h]

/-- C6, as stated, fails: `s = 1.5` adds `1_500_000`, but added to the maximum
`int64_t` the 64-bit sum wraps and the raw value of the result is not the sum; and for
`s = 1e13` the product `1e19` has no conversion to `int64_t` at all. -/
theorem AddTime_wraps :
    isInt64 (2 ^ 63 - 1) ∧
      AddTime ⟨0⟩ (Double.ofRatio false 3 2) = some ⟨1500000⟩ ∧
      AddTime ⟨2 ^ 63 - 1⟩ (Double.ofRatio false 3 2) = some ⟨-9223372036853275809⟩ ∧
      AddTime ⟨2 ^ 63 - 1⟩ (Double.ofRatio false 3 2) ≠ some ⟨(2 ^ 63 - 1) + 1500000⟩ ∧
      AddTime ⟨0⟩ (Double.ofRatio false 10000000000000 1) = none := by
  decide

/-- C6, amended: let `p` be the binary64 product `s * 1e6`.  Whenever `p` truncated
toward zero and its sum with the raw value of `ts` are representable in 64 bits,
`AddTime(ts, s)` has the raw value of `ts` plus `p` truncated toward zero. -/
theorem AddTime_trunc (ts : TimeStamp) (s : Double)
    (hd : isInt64 (Double.truncTowardZero (Double.mul s (Double.ofInt 1000000))))
    (hs : isInt64 (ts.microsecondsSinceEpoch
      + Double.truncTowardZero (Double.mul s (Double.ofInt 1000000)))) :
    AddTime ts s = some ⟨ts.microsecondsSinceEpoch
      + Double.truncTowardZero (Double.mul s (Double.ofInt 1000000))⟩ := by
  have hk : kMicrosecondsPerSecond = 1000000 := by decide
  rw [← Double.truncate_eq_truncTowardZero] at hd hs ⊢
  have h : Double.toInt64 (Double.mul s (Double.ofInt kMicrosecondsPerSecond))
      = some (Double.mul s (Double.ofInt 1000000)).truncate := by
    rw [hk]
    simp only [Double.toInt64, hd, if_true]
  rw [AddTime_of_toInt64 h, wrap64_of_isInt64 hs]

theorem AddTime_trunc_witness :
    AddTime ⟨0⟩ (Double.ofRatio false 3 2) = some ⟨1500000⟩ ∧
      AddTime ⟨0⟩ (Double.ofRatio true 3 2) = some ⟨-1500000⟩ ∧
      AddTime ⟨0⟩ (Double.ofRatio true 15 10000000) = some ⟨-1⟩ ∧
      Double.truncTowardZero
        (Double.mul (Double.ofRatio true 15 10000000) (Double.ofInt 1000000)) = -1 := by
  have ht : Double.truncTowardZero
      (Double.mul (Double.ofRatio true 15 10000000) (Double.ofInt 1000000)) = -1 := by
    rw [← Double.truncate_eq_truncTowardZero]
    decide
  have h := AddTime_trunc ⟨0⟩ (Double.ofRatio true 15 10000000)
    (by rw [ht]; decide) (by rw [ht]; decide)
  rw [ht] at h
  exact ⟨by decide, by decide, h, ht⟩

/-- C7: `AddTime(ts, 0.0)` returns a TimeStamp that compares equal to `ts`. -/
theorem AddTime_zero (ts : TimeStamp) (h : isInt64 ts.microsecondsSinceEpoch) :
    ∃ r, AddTime ts (Double.ofRatio false 0 1) = some r ∧ operator_eq r ts = true := by
  have h0 : Double.toInt64
      (Double.mul (Double.ofRatio false 0 1) (Double.ofInt kMicrosecondsPerSecond)) = some 0 := by
    decide
  refine ⟨_, AddTime_of_toInt64 h0, ?_⟩
  simp only [operator_eq, TimeStamp.microsecondsSinceEpoch, Int.add_zero, decide_eq_true_eq]
  exact wrap64_of_isInt64 h

theorem AddTime_zero_witness :
    isInt64 (TimeStamp.mk 12345678).microsecondsSinceEpoch ∧
      ∃ r, AddTime ⟨12345678⟩ (Double.ofRatio false 0 1) = some r ∧
        operator_eq r ⟨12345678⟩ = true :=
  ⟨by decide, AddTime_zero ⟨12345678⟩ (by decide)⟩

/-! ## `secondsSinceEpoch` and `swap` -/

/-- C11: `secondsSinceEpoch()` is the raw value divided by `1_000_000` and truncated
toward zero, that is the floor of a non-negative quotient and the ceiling of a negative
one; raw `1_000_000` gives `1`, raw `-1` gives `0` and raw `-1_500_000` gives `-1`. -/
theorem secondsSinceEpoch_trunc (v : Int) :
    TimeStamp.secondsSinceEpoch ⟨v⟩
        = (if 0 ≤ (v : ℚ) / 1000000 then ⌊(v : ℚ) / 1000000⌋ else ⌈(v : ℚ) / 1000000⌉) ∧
      TimeStamp.secondsSinceEpoch ⟨1000000⟩ = 1 ∧
      TimeStamp.secondsSinceEpoch ⟨-1⟩ = 0 ∧
      TimeStamp.secondsSinceEpoch ⟨-1500000⟩ = -1 := by
  refine ⟨?_, by decide, by decide, by decide⟩
  have hfloor : ∀ n : Nat, ⌊((n : Int) : ℚ) / 1000000⌋ = ((n / 1000000 : Nat) : Int) := by
    intro n
    have h := Rat.floor_intCast_div_natCast (n : Int) 1000000
    simp only [Nat.cast_ofNat] at h
    rw [h]
    norm_cast
  by_cases h0 : 0 ≤ v
  · obtain ⟨n, rfl⟩ := Int.eq_ofNat_of_zero_le h0
    have hq : (0 : ℚ) ≤ ((n : Int) : ℚ) / 1000000 := by positivity
    rw [if_pos hq, hfloor]
    rfl
  · obtain ⟨n, hn, rfl⟩ : ∃ n : Nat, 0 < n ∧ v = -(n : Int) := ⟨(-v).toNat, by omega, by omega⟩
    have hnq : (0 : ℚ) < ((n : Int) : ℚ) := by exact_mod_cast hn
    have hq : ¬ (0 : ℚ) ≤ ((-(n : Int) : Int) : ℚ) / 1000000 := by
      push_cast
      rw [not_le, neg_div]
      have : (0 : ℚ) < ((n : Int) : ℚ) / 1000000 := by positivity
      simpa using this
    rw [if_neg hq]
    have hc : ((-(n : Int) : Int) : ℚ) / 1000000 = -(((n : Int) : ℚ) / 1000000) := by
      push_cast
      ring
    rw [hc, Int.ceil_neg, hfloor]
    exact tdiv_neg_natCast n

/-- C12: after `a.swap(b)` the raw value of `a` is the former raw value of `b` and the
raw value of `b` is the former raw value of `a`; `100` and `200` end as `200` and `100`. -/
theorem swap_exchanges (x y : Int) :
    ((TimeStamp.mk x).swap ⟨y⟩).1.microsecondsSinceEpoch = y ∧
      ((TimeStamp.mk x).swap ⟨y⟩).2.microsecondsSinceEpoch = x ∧
      (TimeStamp.mk 100).swap ⟨200⟩ = (⟨200⟩, ⟨100⟩) :=
  ⟨rfl, rfl, rfl⟩

/-- C18: when `|s| * 1_000_000` is representable in 64 bits,
`fromUnixTime(s).secondsSinceEpoch()` is `s`, for negative `s` as well. -/
theorem secondsSinceEpoch_fromUnixTime (s : Int) (h : isInt64 (|s| * 1000000)) :
    (TimeStamp.fromUnixTime s).secondsSinceEpoch = s := by
  have hk : kMicrosecondsPerSecond = 1000000 := by decide
  have hfit : isInt64 (s * 1000000) := by
    unfold isInt64 at h ⊢
    rcases abs_cases s with ⟨ha, _⟩ | ⟨ha, _⟩ <;> rw [ha] at h <;> omega
  simp only [TimeStamp.fromUnixTime, TimeStamp.secondsSinceEpoch, hk]
  rw [wrap64_of_isInt64 hfit]
  exact Int.mul_tdiv_cancel s (by decide)

theorem secondsSinceEpoch_fromUnixTime_witness :
    isInt64 (|(-9223372036854 : Int)| * 1000000) ∧
      (TimeStamp.fromUnixTime (-9223372036854)).secondsSinceEpoch = -9223372036854 :=
  ⟨by decide, secondsSinceEpoch_fromUnixTime (-9223372036854) (by decide)⟩

/-! ## The buffer of `toString` -/

theorem toString_text_length (v : Int) (h : isInt64 v) :
    (fmtInt false 0 (Int.tdiv v kMicrosecondsPerSecond) ++
      '.' :: fmtInt true 6 (Int.tmod v kMicrosecondsPerSecond)).length ≤ 22 := by
  have hbound : (Int.tdiv v kMicrosecondsPerSecond).natAbs < 10 ^ 13 ∧
      (Int.tmod v kMicrosecondsPerSecond).natAbs < 10 ^ 6 := by
    have h13 : (10 : Nat) ^ 13 = 10000000000000 := by decide
    have h6 : (10 : Nat) ^ 6 = 1000000 := by decide
    have h63 : (2 : Nat) ^ 63 = 9223372036854775808 := by decide
    rcases isInt64_cases h with ⟨n, hn, rfl⟩ | ⟨n, _, hn, rfl⟩
    · have hs : Int.tdiv (n : Int) kMicrosecondsPerSecond = ((n / 1000000 : Nat) : Int) := rfl
      have hm : Int.tmod (n : Int) kMicrosecondsPerSecond = ((n % 1000000 : Nat) : Int) := rfl
      rw [hs, hm]
      omega
    · rw [tdiv_neg_natCast, tmod_neg_natCast]
      omega
  have l1 := fmtInt_length_le false 0 _ 13 (by decide) hbound.1
  have l2 := fmtInt_length_le true 6 _ 6 (by decide) hbound.2
  simp only [List.length_append, List.length_cons]
  omega

/-- C17: for every 64-bit raw value the text that `toString()` formats has at most 30
characters (in fact at most 22), so `snprintf` with the limit `sizeof(buff) - 1` stores
all of it. -/
theorem toString_not_truncated (v : Int) (h : isInt64 v) :
    (fmtInt false 0 (Int.tdiv v kMicrosecondsPerSecond) ++
        '.' :: fmtInt true 6 (Int.tmod v kMicrosecondsPerSecond)).length ≤ 30 ∧
      snprintf (32 - 1) (fmtInt false 0 (Int.tdiv v kMicrosecondsPerSecond) ++
          '.' :: fmtInt true 6 (Int.tmod v kMicrosecondsPerSecond))
        = fmtInt false 0 (Int.tdiv v kMicrosecondsPerSecond) ++
          '.' :: fmtInt true 6 (Int.tmod v kMicrosecondsPerSecond) ∧
      TimeStamp.toString ⟨v⟩
        = String.mk (fmtInt false 0 (Int.tdiv v kMicrosecondsPerSecond) ++
            '.' :: fmtInt true 6 (Int.tmod v kMicrosecondsPerSecond)) := by
  have hlen := toString_text_length v h
  refine ⟨by omega, ?_, toString_eq v h⟩
  unfold snprintf
  exact List.take_of_length_le (by omega)

theorem toString_not_truncated_witness :
    isInt64 (-2 ^ 63) ∧ isInt64 (2 ^ 63 - 1) ∧
      TimeStamp.toString ⟨-2 ^ 63⟩ = "-9223372036854.-775808" ∧
      TimeStamp.toString ⟨2 ^ 63 - 1⟩ = "9223372036854.775807" :=
  ⟨by decide, by decide,
    ((toString_not_truncated (-2 ^ 63) (by decide)).2.2).trans (by decide),
    ((toString_not_truncated (2 ^ 63 - 1) (by decide)).2.2).trans (by decide)⟩

/-! ## `toFormattedString` -/

theorem wrap32_of_isInt32 {x : Int} (h : isInt32 x) : wrap32 x = x := by
  unfold isInt32 at h
  unfold wrap32
  omega

theorem isInt32_wrap32 (x : Int) : isInt32 (wrap32 x) := by
  unfold isInt32 wrap32
  omega

theorem snprintf_of_length_le {size : Nat} {text : List Char} (h : text.length ≤ size - 1) :
    snprintf size text = text :=
  List.take_of_length_le h

/-- C13, as stated, fails: the raw values `-1` and `999999` have the same remainder
modulo `1_000_000`, yet for the same clock reading `toFormattedString(true)` ends in
`.-00001` for the first and in `.999999` for the second. -/
theorem toFormattedString_congruent_differ :
    isInt64 (-1) ∧ isInt64 999999 ∧ Tm.isClockReading ⟨30, 25, 22, 25, 5, 118⟩ ∧
      (-1 : Int) % 1000000 = 999999 % 1000000 ∧
      TimeStamp.toFormattedString ⟨-1⟩ ⟨30, 25, 22, 25, 5, 118⟩ true
        = "2018-06-25 22:25:30.-00001" ∧
      TimeStamp.toFormattedString ⟨999999⟩ ⟨30, 25, 22, 25, 5, 118⟩ true
        = "2018-06-25 22:25:30.999999" ∧
      TimeStamp.toFormattedString ⟨-1⟩ ⟨30, 25, 22, 25, 5, 118⟩ true
        ≠ TimeStamp.toFormattedString ⟨999999⟩ ⟨30, 25, 22, 25, 5, 118⟩ true := by
  decide

/-- C13, amended: with the clock reading as an explicit input, the text of
`toFormattedString` depends on the TimeStamp only through the remainder that the `%` of
the code computes for its raw value and `1_000_000` (the truncating remainder, which
has the sign of the raw value), and not at all when `showMicroseconds` is false. -/
theorem toFormattedString_clock_only (a b : TimeStamp) (tm_time : Tm) (showMicroseconds : Bool)
    (h : showMicroseconds = true →
      Int.tmod a.microsecondsSinceEpoch kMicrosecondsPerSecond
        = Int.tmod b.microsecondsSinceEpoch kMicrosecondsPerSecond) :
    TimeStamp.toFormattedString a tm_time showMicroseconds
      = TimeStamp.toFormattedString b tm_time showMicroseconds := by
  cases showMicroseconds with
  | false => rfl
  | true =>
    have h' := h rfl
    simp only [TimeStamp.microsecondsSinceEpoch] at h'
    simp only [TimeStamp.toFormattedString, h', if_true]

theorem toFormattedString_clock_only_witness :
    TimeStamp.toFormattedString ⟨1000001⟩ ⟨30, 25, 22, 25, 5, 118⟩ true
        = TimeStamp.toFormattedString ⟨5000001⟩ ⟨30, 25, 22, 25, 5, 118⟩ true ∧
      TimeStamp.toFormattedString ⟨1000001⟩ ⟨30, 25, 22, 25, 5, 118⟩ false
        = TimeStamp.toFormattedString ⟨77⟩ ⟨30, 25, 22, 25, 5, 118⟩ false ∧
      TimeStamp.toFormattedString ⟨5000001⟩ ⟨30, 25, 22, 25, 5, 118⟩ true
        = "2018-06-25 22:25:30.000001" ∧
      TimeStamp.toFormattedString ⟨77⟩ ⟨30, 25, 22, 25, 5, 118⟩ false = "2018-06-25 22:25:30" :=
  ⟨toFormattedString_clock_only ⟨1000001⟩ ⟨5000001⟩ ⟨30, 25, 22, 25, 5, 118⟩ true
      (fun _ => by decide),
    toFormattedString_clock_only ⟨1000001⟩ ⟨77⟩ ⟨30, 25, 22, 25, 5, 118⟩ false
      (fun hf => absurd hf (by decide)),
    by decide, by decide⟩

/-- Below the year 1000, which no reading of the system clock has, the conversion `%4d`
pads the year with a blank. -/
theorem toFormattedString_year_blank :
    TimeStamp.toFormattedString ⟨0⟩ ⟨0, 0, 0, 1, 0, 999 - 1900⟩ false = " 999-01-01 00:00:00" ∧
      TimeStamp.toFormattedString ⟨0⟩ ⟨0, 0, 0, 1, 0, 999 - 1900⟩ false
        ≠ "0999-01-01 00:00:00" := by
  decide

/-- The date and time part of the formatted text of a broken-down clock reading has at
most 31 characters. -/
theorem date_text_length {tm_time : Tm} (htm : tm_time.isBrokenDown) :
    (fmtInt false 4 (wrap32 (tm_time.tm_year + 1900)) ++ '-' ::
      (fmtInt true 2 (wrap32 (tm_time.tm_mon + 1)) ++ '-' ::
        (fmtInt true 2 tm_time.tm_mday ++ ' ' ::
          (fmtInt true 2 tm_time.tm_hour ++ ':' ::
            (fmtInt true 2 tm_time.tm_min ++ ':' ::
              fmtInt true 2 tm_time.tm_sec))))).length ≤ 31 := by
  obtain ⟨hs, hmi, hh, hd, hmo, _⟩ := htm
  have h10 : (10 : Nat) ^ 10 = 10000000000 := by decide
  have h2 : (10 : Nat) ^ 2 = 100 := by decide
  have hw := isInt32_wrap32 (tm_time.tm_year + 1900)
  unfold isInt32 at hw
  have hmon : wrap32 (tm_time.tm_mon + 1) = tm_time.tm_mon + 1 :=
    wrap32_of_isInt32 (by unfold isInt32; omega)
  have ly := fmtInt_length_le false 4 (wrap32 (tm_time.tm_year + 1900)) 10 (by decide) (by omega)
  have lmo := fmtInt_length_le true 2 (wrap32 (tm_time.tm_mon + 1)) 2 (by decide)
    (by rw [hmon]; omega)
  have ld := fmtInt_length_le true 2 tm_time.tm_mday 2 (by decide) (by omega)
  have lh := fmtInt_length_le true 2 tm_time.tm_hour 2 (by decide) (by omega)
  have lmi := fmtInt_length_le true 2 tm_time.tm_min 2 (by decide) (by omega)
  have ls := fmtInt_length_le true 2 tm_time.tm_sec 2 (by decide) (by omega)
  simp only [List.length_append, List.length_cons]
  omega

/-- C15, as stated, fails: for the raw value `-1` the text after the time of day is
`.-00001`, which is not a `.` followed by six decimal digits. -/
theorem toFormattedString_negative_remainder :
    Tm.isBrokenDown ⟨30, 25, 22, 25, 5, 118⟩ ∧
      TimeStamp.toFormattedString ⟨-1⟩ ⟨30, 25, 22, 25, 5, 118⟩ false = "2018-06-25 22:25:30" ∧
      TimeStamp.toFormattedString ⟨-1⟩ ⟨30, 25, 22, 25, 5, 118⟩ true
        = "2018-06-25 22:25:30.-00001" ∧
      ¬ ∃ frac : List Char, frac.length = 6 ∧ (∀ c ∈ frac, c.isDigit = true) ∧
          TimeStamp.toFormattedString ⟨-1⟩ ⟨30, 25, 22, 25, 5, 118⟩ true
            = TimeStamp.toFormattedString ⟨-1⟩ ⟨30, 25, 22, 25, 5, 118⟩ false ++ "." ++
                String.mk frac := by
  have hf : TimeStamp.toFormattedString ⟨-1⟩ ⟨30, 25, 22, 25, 5, 118⟩ false
      = "2018-06-25 22:25:30" := by decide
  have ht : TimeStamp.toFormattedString ⟨-1⟩ ⟨30, 25, 22, 25, 5, 118⟩ true
      = "2018-06-25 22:25:30.-00001" := by decide
  refine ⟨by decide, hf, ht, ?_⟩
  rintro ⟨frac, -, hdig, heq⟩
  rw [hf, ht] at heq
  have hdata := congrArg String.data heq
  simp only [String.data_append] at hdata
  simp only [List.append_assoc, List.cons_append, List.nil_append, List.cons.injEq,
    true_and] at hdata
  have hmem : '-' ∈ frac := by
    rw [← hdata]
    simp
  exact absurd (hdig '-' hmem) (by decide)

/-- C15, amended: for a broken-down clock reading and a raw value `v` whose remainder
`v % 1_000_000` (the truncating remainder of the code) is not negative,
`toFormattedString(true)` is `toFormattedString(false)` of the same clock reading
followed by `.` and the six decimal digits of that remainder. -/
theorem toFormattedString_micro (ts : TimeStamp) (tm_time : Tm) (htm : tm_time.isBrokenDown)
    (hr : 0 ≤ Int.tmod ts.microsecondsSinceEpoch kMicrosecondsPerSecond) :
    TimeStamp.toFormattedString ts tm_time true
      = TimeStamp.toFormattedString ts tm_time false ++ "." ++
          String.mk
            [Nat.digitChar
              ((Int.tmod ts.microsecondsSinceEpoch kMicrosecondsPerSecond).toNat / 100000 % 10),
             Nat.digitChar
              ((Int.tmod ts.microsecondsSinceEpoch kMicrosecondsPerSecond).toNat / 10000 % 10),
             Nat.digitChar
              ((Int.tmod ts.microsecondsSinceEpoch kMicrosecondsPerSecond).toNat / 1000 % 10),
             Nat.digitChar
              ((Int.tmod ts.microsecondsSinceEpoch kMicrosecondsPerSecond).toNat / 100 % 10),
             Nat.digitChar
              ((Int.tmod ts.microsecondsSinceEpoch kMicrosecondsPerSecond).toNat / 10 % 10),
             Nat.digitChar
              ((Int.tmod ts.microsecondsSinceEpoch kMicrosecondsPerSecond).toNat % 10)] := by
  have hlen := date_text_length htm
  simp only [TimeStamp.microsecondsSinceEpoch] at hr ⊢
  obtain ⟨m, hm⟩ := Int.eq_ofNat_of_zero_le hr
  have hlt : Int.tmod ts.microsecondsSinceEpoch_ kMicrosecondsPerSecond < kMicrosecondsPerSecond :=
    Int.tmod_lt_of_pos _ (by decide)
  have hk : kMicrosecondsPerSecond = 1000000 := by decide
  have hm6 : m < 1000000 := by
    rw [hm, hk] at hlt
    omega
  have hw : wrap32 (m : Int) = (m : Int) := wrap32_of_isInt32 (by unfold isInt32; omega)
  simp only [TimeStamp.toFormattedString, if_true, Bool.false_eq_true, if_false, hm, hw,
    fmtInt_natCast true 6 m, pad_six hm6, Int.toNat_ofNat]
  rw [snprintf_of_length_le, snprintf_of_length_le]
  · apply String.ext
    simp [List.append_assoc]
  · omega
  · simp only [List.length_append, List.length_cons, List.length_nil] at hlen ⊢
    omega

theorem toFormattedString_micro_witness :
    Tm.isBrokenDown ⟨30, 25, 22, 25, 5, 118⟩ ∧
      TimeStamp.toFormattedString ⟨1530000000123456⟩ ⟨30, 25, 22, 25, 5, 118⟩ true
        = "2018-06-25 22:25:30.123456" :=
  ⟨by decide, (toFormattedString_micro ⟨1530000000123456⟩ ⟨30, 25, 22, 25, 5, 118⟩
    (by decide) (by decide)).trans (by decide)⟩

/-! ## Reading a rendering back -/

theorem digitChar_toNat : ∀ d, d < 10 → (Nat.digitChar d).toNat - 48 = d := by decide

theorem readBack_snoc (l : List Char) (c : Char) :
    List.foldl (fun acc ch => 10 * acc + (ch.toNat - 48)) 0 (l ++ [c])
      = 10 * List.foldl (fun acc ch => 10 * acc + (ch.toNat - 48)) 0 l + (c.toNat - 48) := by
  simp [List.foldl_append]

/-- Reading the decimal rendering of `n` digit by digit gives `n` back. -/
theorem readBack_decDigits : ∀ (k n : Nat), n < k →
    List.foldl (fun acc ch => 10 * acc + (ch.toNat - 48)) 0 (decDigits n) = n := by
  intro k
  induction k with
  | zero => intro n h; omega
  | succ k ih =>
    intro n h
    by_cases hlt : n < 10
    · rw [decDigits_lt_ten hlt]
      simp [digitChar_toNat n hlt]
    · rw [decDigits_ge_ten (by omega), readBack_snoc, ih (n / 10) (by omega),
        digitChar_toNat _ (Nat.mod_lt n (by decide))]
      omega

theorem readBack_zeros (k : Nat) (l : List Char) :
    List.foldl (fun acc ch => 10 * acc + (ch.toNat - 48)) 0 (List.replicate k '0' ++ l)
      = List.foldl (fun acc ch => 10 * acc + (ch.toNat - 48)) 0 l := by
  induction k with
  | zero => simp
  | succ k ih =>
    rw [List.replicate_succ, List.cons_append, List.foldl_cons]
    exact ih

theorem decDigits_ne_minus (n : Nat) : ∀ c ∈ decDigits n, c ≠ '-' := by
  intro c hc hminus
  have := decDigits_all_isDigit n c hc
  rw [hminus] at this
  exact absurd this (by decide)

/-- A sign followed by digits determines the sign and the digits. -/
theorem signed_text_inj {x y : Int} {bx body : List Char}
    (hx : ∀ c ∈ bx, c ≠ '-') (hy : ∀ c ∈ body, c ≠ '-')
    (h : (if x < 0 then ['-'] else []) ++ bx = (if y < 0 then ['-'] else []) ++ body) :
    (x < 0 ↔ y < 0) ∧ bx = body := by
  by_cases h1 : x < 0 <;> by_cases h2 : y < 0 <;>
    simp only [h1, h2, if_true, if_false, List.singleton_append, List.nil_append,
      List.cons.injEq, true_and] at h
  · exact ⟨by simp [h1, h2], h⟩
  · exact absurd rfl (hy '-' (by rw [← h]; simp))
  · exact absurd rfl (hx '-' (by rw [h]; simp))
  · exact ⟨by simp [h1, h2], h⟩

theorem eq_of_sign_natAbs {x y : Int} (hs : x < 0 ↔ y < 0) (ha : x.natAbs = y.natAbs) :
    x = y := by
  omega

/-- The conversion with the `0` flag is injective. -/
theorem fmtInt_zeroFlag_inj {width : Nat} {x y : Int}
    (h : fmtInt true width x = fmtInt true width y) : x = y := by
  simp only [fmtInt, if_true] at h
  have hmem : ∀ (k n : Nat), ∀ c ∈ List.replicate k '0' ++ decDigits n, c ≠ '-' := by
    intro k n c hc
    rcases List.mem_append.1 hc with hc | hc
    · rw [(List.mem_replicate.1 hc).2]
      decide
    · exact decDigits_ne_minus n c hc
  obtain ⟨hs, hb⟩ := signed_text_inj (hmem _ _) (hmem _ _) h
  have hv := congrArg (List.foldl (fun acc ch => 10 * acc + (ch.toNat - 48)) 0) hb
  rw [readBack_zeros, readBack_zeros, readBack_decDigits _ _ (Nat.lt_succ_self _),
    readBack_decDigits _ _ (Nat.lt_succ_self _)] at hv
  exact eq_of_sign_natAbs hs hv

/-- The conversion `%lld` without a field width is injective. -/
theorem fmtInt_plain_inj {x y : Int} (h : fmtInt false 0 x = fmtInt false 0 y) : x = y := by
  simp only [fmtInt, Bool.false_eq_true, if_false, Nat.zero_sub, List.replicate_zero,
    List.nil_append] at h
  obtain ⟨hs, hb⟩ := signed_text_inj (decDigits_ne_minus _) (decDigits_ne_minus _) h
  have hv := congrArg (List.foldl (fun acc ch => 10 * acc + (ch.toNat - 48)) 0) hb
  rw [readBack_decDigits _ _ (Nat.lt_succ_self _),
    readBack_decDigits _ _ (Nat.lt_succ_self _)] at hv
  exact eq_of_sign_natAbs hs hv

/-- A text is split in one way only at the first occurrence of a character. -/
theorem split_at_first {x : Char} : ∀ {a c b d : List Char}, x ∉ a → x ∉ c →
    a ++ x :: b = c ++ x :: d → a = c ∧ b = d := by
  intro a
  induction a with
  | nil =>
    intro c b d _ hc h
    cases c with
    | nil => exact ⟨rfl, by simpa using h⟩
    | cons y c =>
      simp only [List.nil_append, List.cons_append, List.cons.injEq] at h
      exact absurd (by rw [h.1]; simp) hc
  | cons z a ih =>
    intro c b d ha hc h
    cases c with
    | nil =>
      simp only [List.nil_append, List.cons_append, List.cons.injEq] at h
      exact absurd (by rw [← h.1]; simp) ha
    | cons y c =>
      simp only [List.cons_append, List.cons.injEq] at h
      have ha' : x ∉ a := fun hm => ha (List.mem_cons_of_mem _ hm)
      have hc' : x ∉ c := fun hm => hc (List.mem_cons_of_mem _ hm)
      obtain ⟨h1, h2⟩ := ih ha' hc' h.2
      exact ⟨by rw [h.1, h1], h2⟩

/-- C16: `toString()` is injective on 64-bit raw values: two raw values with the same
text are equal. -/
theorem toString_injective (v w : Int) (hv : isInt64 v) (hw : isInt64 w)
    (h : TimeStamp.toString ⟨v⟩ = TimeStamp.toString ⟨w⟩) : v = w := by
  rw [toString_eq v hv, toString_eq w hw] at h
  have hl := congrArg String.data h
  simp only [] at hl
  obtain ⟨hsec, hfrac⟩ := split_at_first
    (fun hm => fmtInt_ne_dot _ _ _ _ hm rfl) (fun hm => fmtInt_ne_dot _ _ _ _ hm rfl) hl
  have hq := fmtInt_plain_inj hsec
  have hr := fmtInt_zeroFlag_inj hfrac
  rw [← Int.tdiv_add_tmod v kMicrosecondsPerSecond, ← Int.tdiv_add_tmod w kMicrosecondsPerSecond,
    hq, hr]

theorem toString_injective_witness :
    isInt64 (-1500000) ∧ isInt64 (3 * -500000) ∧
      TimeStamp.toString ⟨-1500000⟩ = TimeStamp.toString ⟨3 * -500000⟩ ∧
      (-1500000 : Int) = 3 * -500000 :=
  ⟨by decide, by decide, by decide,
    toString_injective (-1500000) (3 * -500000) (by decide) (by decide) (by decide)⟩

/-! ## Exact results of the binary64 operations -/

theorem quotient_scaled (a d : Nat) (e : Int) (hd : 0 < d) :
    (a : ℚ) / d
      = ((a * 2 ^ (-e).toNat : Nat) : ℚ) / ((d * 2 ^ e.toNat : Nat) : ℚ) * (2 : ℚ) ^ e := by
  have hdq : (d : ℚ) ≠ 0 := by exact_mod_cast (Nat.pos_iff_ne_zero.1 hd)
  have hpos : (2 : ℚ) ^ e ≠ 0 := by positivity
  push_cast
  rw [mul_div_mul_comm, two_zpow_split, mul_assoc, inv_mul_cancel₀ hpos, mul_one]

theorem roundDiv_of_dvd {n m : Nat} (hm : 0 < m) (h : m ∣ n) : roundDiv n m = n / m := by
  have hr : n % m = 0 := Nat.mod_eq_zero_of_dvd h
  unfold roundDiv
  simp only [hr]
  rw [if_neg]
  omega

/-- A quotient that has at most 53 significant binary digits is returned by `roundPos`
without any rounding error. -/
theorem roundPos_exact {a d M : Nat} {E : Int} (ha : 0 < a) (hd : 0 < d) (hM : M < 2 ^ 53)
    (h : (a : ℚ) / d = (M : ℚ) * (2 : ℚ) ^ E) :
    ((roundPos a d).1 : ℚ) * (2 : ℚ) ^ (roundPos a d).2 = (a : ℚ) / d := by
  obtain ⟨hlo, hhi⟩ := binExp_spec ha hd
  have hmpos : 0 < d * 2 ^ (binExp a d).toNat := Nat.mul_pos hd (Nat.two_pow_pos _)
  have hmq : (0 : ℚ) < ((d * 2 ^ (binExp a d).toNat : Nat) : ℚ) := by exact_mod_cast hmpos
  have h2pos : ∀ z : Int, (0 : ℚ) < (2 : ℚ) ^ z := fun z => by positivity
  have hsc := quotient_scaled a d (binExp a d) hd
  -- the scaled quotient is `M * 2 ^ z` with `z = E - binExp a d`
  have hq : ((a * 2 ^ (-(binExp a d)).toNat : Nat) : ℚ) / ((d * 2 ^ (binExp a d).toNat : Nat) : ℚ)
      = (M : ℚ) * (2 : ℚ) ^ (E - binExp a d) := by
    rw [zpow_sub₀ (by norm_num : (2 : ℚ) ≠ 0), ← mul_div_assoc, ← h, hsc]
    field_simp
    ring
  have hge : (2 : ℚ) ^ (52 : ℕ) ≤ (M : ℚ) * (2 : ℚ) ^ (E - binExp a d) := by
    rw [← hq, le_div_iff₀ hmq]
    exact_mod_cast hlo
  have hz : 0 ≤ E - binExp a d := by
    by_contra hneg
    have hle : (2 : ℚ) ^ (E - binExp a d) ≤ (2 : ℚ) ^ (-1 : Int) :=
      zpow_le_zpow_right₀ (by norm_num) (by omega)
    have hMq : (M : ℚ) < (2 : ℚ) ^ (53 : ℕ) := by exact_mod_cast hM
    have hM0 : (0 : ℚ) ≤ (M : ℚ) := by positivity
    have : (M : ℚ) * (2 : ℚ) ^ (E - binExp a d) < (2 : ℚ) ^ (52 : ℕ) := by
      calc (M : ℚ) * (2 : ℚ) ^ (E - binExp a d)
          ≤ (M : ℚ) * (2 : ℚ) ^ (-1 : Int) := mul_le_mul_of_nonneg_left hle hM0
        _ < (2 : ℚ) ^ (53 : ℕ) * (2 : ℚ) ^ (-1 : Int) :=
            mul_lt_mul_of_pos_right hMq (h2pos _)
        _ = (2 : ℚ) ^ (52 : ℕ) := by norm_num
    linarith
  obtain ⟨k, hk⟩ := Int.eq_ofNat_of_zero_le hz
  have hnat : a * 2 ^ (-(binExp a d)).toNat = d * 2 ^ (binExp a d).toNat * (M * 2 ^ k) := by
    have hq' := hq
    rw [hk, zpow_natCast, div_eq_iff (ne_of_gt hmq)] at hq'
    have : ((a * 2 ^ (-(binExp a d)).toNat : Nat) : ℚ)
        = ((d * 2 ^ (binExp a d).toNat * (M * 2 ^ k) : Nat) : ℚ) := by
      rw [hq']
      push_cast
      ring
    exact_mod_cast this
  have hdiv : a * 2 ^ (-(binExp a d)).toNat / (d * 2 ^ (binExp a d).toNat) = M * 2 ^ k := by
    rw [hnat]
    exact Nat.mul_div_cancel_left _ hmpos
  have hround : roundDiv (a * 2 ^ (-(binExp a d)).toNat) (d * 2 ^ (binExp a d).toNat)
      = M * 2 ^ k := by
    rw [roundDiv_of_dvd hmpos ⟨M * 2 ^ k, hnat⟩, hdiv]
  have hlt : M * 2 ^ k < 2 ^ 53 := by
    rw [← hdiv]
    exact (Nat.div_lt_iff_lt_mul hmpos).2 hhi
  unfold roundPos
  simp only [hround]
  rw [if_neg (by omega)]
  simp only []
  rw [hsc, hq, hk, zpow_natCast]
  push_cast
  ring

theorem Double.toRat_zero_mant {x : Double} (h : x.mant = 0) : x.toRat = 0 := by
  simp [Double.toRat, h]

theorem Double.toRat_neg (x : Double) : (Double.neg x).toRat = -x.toRat := by
  unfold Double.toRat Double.neg
  cases x.sign <;> simp

/-- An integer below `2^53` in magnitude is converted to `double` exactly. -/
theorem Double.toRat_ofInt {x : Int} (h : x.natAbs < 2 ^ 53) : (Double.ofInt x).toRat = x := by
  by_cases h0 : x = 0
  · subst h0
    rw [Double.ofInt_zero]
    simp [Double.toRat]
  · have hpos : 0 < x.natAbs := by omega
    have hex := roundPos_exact (a := x.natAbs) (d := 1) (M := x.natAbs) (E := 0) hpos
      (by decide) h (by simp)
    rw [Double.ofInt_of_ne_zero h0]
    simp only [Double.toRat, mul_assoc, hex, Nat.cast_one, div_one, decide_eq_true_eq]
    have habs : ((x.natAbs : Nat) : ℚ) = |(x : ℚ)| := by
      rw [Nat.cast_natAbs]
      simp
    rw [habs]
    by_cases hneg : x < 0
    · have : (x : ℚ) < 0 := by exact_mod_cast hneg
      rw [if_pos hneg, abs_of_neg this]
      ring
    · have : (0 : ℚ) ≤ (x : ℚ) := by exact_mod_cast (not_lt.1 hneg)
      rw [if_neg hneg, abs_of_nonneg this]
      ring

/-- A product with at most 53 significant binary digits is exact. -/
theorem Double.toRat_mul {x y : Double} {M : Nat} (hM : M < 2 ^ 53)
    (h : (x.mant : ℚ) * (2 : ℚ) ^ x.exp * ((y.mant : ℚ) * (2 : ℚ) ^ y.exp) = (M : ℚ)) :
    (Double.mul x y).toRat = x.toRat * y.toRat := by
  by_cases hz : x.mant = 0 ∨ y.mant = 0
  · have h0 : (Double.mul x y).toRat = 0 := by
      simp [Double.mul, hz, Double.toRat]
    rw [h0]
    rcases hz with hz | hz
    · rw [Double.toRat_zero_mant hz, zero_mul]
    · rw [Double.toRat_zero_mant hz, mul_zero]
  · have hx : 0 < x.mant := by omega
    have hy : 0 < y.mant := by omega
    have h2 : ∀ z : Int, (2 : ℚ) ^ z ≠ 0 := fun z => by positivity
    have hquot : ((x.mant * y.mant : Nat) : ℚ) / ((1 : Nat) : ℚ)
        = (M : ℚ) * (2 : ℚ) ^ (-(x.exp + y.exp)) := by
      rw [← h, zpow_neg, zpow_add₀ (by norm_num : (2 : ℚ) ≠ 0)]
      push_cast
      field_simp
      ring
    have hex := roundPos_exact (Nat.mul_pos hx hy) (by decide : 0 < 1) hM hquot
    simp only [Double.mul, hz, if_false, Double.toRat]
    rw [zpow_add₀ (by norm_num : (2 : ℚ) ≠ 0), zpow_add₀ (by norm_num : (2 : ℚ) ≠ 0)]
    have hval : ((roundPos (x.mant * y.mant) 1).1 : ℚ) * (2 : ℚ) ^ (roundPos (x.mant * y.mant) 1).2
        = (x.mant : ℚ) * (y.mant : ℚ) := by
      rw [hex]
      push_cast
      ring
    have hsign : (if (xor x.sign y.sign) = true then (-1 : ℚ) else 1)
        = (if x.sign = true then (-1 : ℚ) else 1) * (if y.sign = true then (-1 : ℚ) else 1) := by
      cases x.sign <;> cases y.sign <;> simp
    rw [hsign]
    calc (if x.sign = true then (-1 : ℚ) else 1) * (if y.sign = true then (-1 : ℚ) else 1)
            * ((roundPos (x.mant * y.mant) 1).1 : ℚ)
            * ((2 : ℚ) ^ (roundPos (x.mant * y.mant) 1).2 * (2 : ℚ) ^ x.exp * (2 : ℚ) ^ y.exp)
        = (if x.sign = true then (-1 : ℚ) else 1) * (if y.sign = true then (-1 : ℚ) else 1)
            * (((roundPos (x.mant * y.mant) 1).1 : ℚ)
              * (2 : ℚ) ^ (roundPos (x.mant * y.mant) 1).2)
            * ((2 : ℚ) ^ x.exp * (2 : ℚ) ^ y.exp) := by ring
      _ = _ := by
          rw [hval]
          ring

/-- A quotient with at most 53 significant binary digits is exact. -/
theorem Double.toRat_div {x y : Double} {M : Nat} (hy : y.mant ≠ 0) (hM : M < 2 ^ 53)
    (h : (x.mant : ℚ) * (2 : ℚ) ^ x.exp / ((y.mant : ℚ) * (2 : ℚ) ^ y.exp) = (M : ℚ)) :
    (Double.div x y).toRat = x.toRat / y.toRat := by
  by_cases hz : x.mant = 0
  · have h0 : (Double.div x y).toRat = 0 := by
      simp [Double.div, hz, Double.toRat]
    rw [h0, Double.toRat_zero_mant hz, zero_div]
  · have hx : 0 < x.mant := by omega
    have hy' : 0 < y.mant := by omega
    have hyq : (y.mant : ℚ) ≠ 0 := by exact_mod_cast hy
    have h2 : ∀ z : Int, (2 : ℚ) ^ z ≠ 0 := fun z => by positivity
    have hquot : (x.mant : ℚ) / (y.mant : ℚ) = (M : ℚ) * (2 : ℚ) ^ (y.exp - x.exp) := by
      rw [← h, zpow_sub₀ (by norm_num : (2 : ℚ) ≠ 0)]
      have := h2 x.exp
      have := h2 y.exp
      field_simp
      ring
    have hex := roundPos_exact hx hy' hM hquot
    simp only [Double.div, hz, if_false, Double.toRat]
    rw [zpow_sub₀ (by norm_num : (2 : ℚ) ≠ 0), zpow_add₀ (by norm_num : (2 : ℚ) ≠ 0)]
    have hsign : (if (xor x.sign y.sign) = true then (-1 : ℚ) else 1)
        = (if x.sign = true then (-1 : ℚ) else 1) / (if y.sign = true then (-1 : ℚ) else 1) := by
      cases x.sign <;> cases y.sign <;> simp
    rw [hsign]
    calc (if x.sign = true then (-1 : ℚ) else 1) / (if y.sign = true then (-1 : ℚ) else 1)
            * ((roundPos x.mant y.mant).1 : ℚ)
            * ((2 : ℚ) ^ (roundPos x.mant y.mant).2 * (2 : ℚ) ^ x.exp / (2 : ℚ) ^ y.exp)
        = (if x.sign = true then (-1 : ℚ) else 1) / (if y.sign = true then (-1 : ℚ) else 1)
            * (((roundPos x.mant y.mant).1 : ℚ) * (2 : ℚ) ^ (roundPos x.mant y.mant).2)
            * ((2 : ℚ) ^ x.exp / (2 : ℚ) ^ y.exp) := by ring
      _ = _ := by
          rw [hex]
          have := h2 y.exp
          have hs : (if y.sign = true then (-1 : ℚ) else 1) ≠ 0 := by
            cases y.sign <;> simp
          field_simp

/-- The conversion to `int64_t` of a value that is an integer returns that integer. -/
theorem Double.truncate_of_toRat_eq {x : Double} {z : Int} (h : x.toRat = (z : ℚ)) :
    x.truncate = z := by
  rw [Double.truncate_eq_truncTowardZero]
  unfold Double.truncTowardZero
  rw [h]
  split_ifs <;> simp

theorem Double.abs_toRat (x : Double) : |x.toRat| = (x.mant : ℚ) * (2 : ℚ) ^ x.exp := by
  have hmag : (0 : ℚ) ≤ (x.mant : ℚ) * (2 : ℚ) ^ x.exp := by positivity
  unfold Double.toRat
  cases x.sign with
  | false => simp [abs_of_nonneg hmag]
  | true =>
    simp only [if_true, neg_mul, one_mul, abs_neg]
    exact abs_of_nonneg hmag

/-- Two values with the same exact value compare equal. -/
theorem Double.eq_of_toRat_eq {x y : Double} (h : x.toRat = y.toRat) :
    Double.eq x y = true := by
  have h2 : ∀ z : Int, (0 : ℚ) < (2 : ℚ) ^ z := fun z => by positivity
  have hmag : (x.mant : ℚ) * (2 : ℚ) ^ x.exp = (y.mant : ℚ) * (2 : ℚ) ^ y.exp := by
    rw [← Double.abs_toRat, ← Double.abs_toRat, h]
  have hnat : x.mant * 2 ^ (x.exp - y.exp).toNat = y.mant * 2 ^ (y.exp - x.exp).toNat := by
    have hsplit := two_zpow_split (y.exp - x.exp)
    have hneg : (-(y.exp - x.exp)).toNat = (x.exp - y.exp).toNat := by
      congr 1
      ring
    rw [hneg] at hsplit
    have hQ : (0 : ℚ) < (2 : ℚ) ^ (y.exp - x.exp).toNat := by positivity
    have : ((x.mant * 2 ^ (x.exp - y.exp).toNat : Nat) : ℚ)
        = ((y.mant * 2 ^ (y.exp - x.exp).toNat : Nat) : ℚ) := by
      push_cast
      have hP : (2 : ℚ) ^ (x.exp - y.exp).toNat
          = ((2 : ℚ) ^ (y.exp - x.exp))⁻¹ * (2 : ℚ) ^ (y.exp - x.exp).toNat := by
        rw [← hsplit]
        field_simp
      rw [hP, zpow_sub₀ (by norm_num : (2 : ℚ) ≠ 0), inv_div, ← mul_assoc, mul_div_assoc',
        hmag]
      have := ne_of_gt (h2 y.exp)
      field_simp
    exact_mod_cast this
  have hsign : x.sign = y.sign ∨ x.mant = 0 := by
    by_cases hm : x.mant = 0
    · exact Or.inr hm
    · left
      have hpos : (0 : ℚ) < (x.mant : ℚ) * (2 : ℚ) ^ x.exp := by
        have : (0 : ℚ) < (x.mant : ℚ) := by exact_mod_cast Nat.pos_of_ne_zero hm
        exact mul_pos this (h2 _)
      unfold Double.toRat at h
      rw [mul_assoc, mul_assoc, ← hmag] at h
      cases hx : x.sign <;> cases hy : y.sign <;> simp only [hx, hy] at h ⊢ <;>
        first
          | rfl
          | (exfalso
             simp only [if_true, Bool.false_eq_true, if_false] at h
             linarith)
  unfold Double.eq
  rw [decide_eq_true hnat, Bool.true_and]
  rcases hsign with hs | hs
  · simp [hs]
  · simp [hs]

/-! ## `AddTime` followed by `TimeDifference` -/

theorem toRat_kMicrosecondsPerSecond :
    (Double.ofInt kMicrosecondsPerSecond).toRat = 1000000 := by
  have h := Double.toRat_ofInt (x := kMicrosecondsPerSecond) (by decide)
  rw [h]
  have hk : kMicrosecondsPerSecond = 1000000 := by decide
  rw [hk]
  norm_num

/-- The quotient by `1e6` of a whole number of seconds expressed in microseconds is
exact when the count of microseconds is below `2^53` in magnitude. -/
theorem toRat_div_micro {n : Int} (h53 : (n * 1000000).natAbs < 2 ^ 53) :
    (Double.div (Double.ofInt (n * 1000000)) (Double.ofInt kMicrosecondsPerSecond)).toRat
      = (n : ℚ) := by
  have hK := toRat_kMicrosecondsPerSecond
  have hD := Double.toRat_ofInt h53
  have hKm : (Double.ofInt kMicrosecondsPerSecond).mant ≠ 0 := by
    rw [ofInt_kMicrosecondsPerSecond]
    decide
  have hn : n.natAbs < 2 ^ 53 := by omega
  have hquot : ((Double.ofInt (n * 1000000)).mant : ℚ) * (2 : ℚ) ^ (Double.ofInt (n * 1000000)).exp
      / (((Double.ofInt kMicrosecondsPerSecond).mant : ℚ)
          * (2 : ℚ) ^ (Double.ofInt kMicrosecondsPerSecond).exp) = ((n.natAbs : Nat) : ℚ) := by
    rw [← Double.abs_toRat, ← Double.abs_toRat, hK, hD, Nat.cast_natAbs]
    push_cast
    rw [abs_mul]
    norm_num
  rw [Double.toRat_div hKm hn hquot, hK, hD]
  push_cast
  field_simp

/-- C19: for a whole number `n` of seconds whose microsecond count is below `2^53` in
magnitude and whose sum with the raw value of `ts` is representable in 64 bits,
`TimeDifference(AddTime(ts, n), ts) == n` and `TimeDifference(ts, AddTime(ts, n)) == -n`. -/
theorem TimeDifference_AddTime (ts : TimeStamp) (n : Int)
    (hn : isInt64 (n * 1000000))
    (hsum : isInt64 (ts.microsecondsSinceEpoch + n * 1000000))
    (h53 : |n * 1000000| < 2 ^ 53) :
    ∃ r, AddTime ts (Double.ofInt n) = some r ∧
      Double.eq (TimeDifference r ts) (Double.ofInt n) = true ∧
      Double.eq (TimeDifference ts r) (Double.neg (Double.ofInt n)) = true := by
  have hnat : (n * 1000000).natAbs < 2 ^ 53 := by
    rw [Int.abs_eq_natAbs] at h53
    exact_mod_cast h53
  have hnat' : (-(n * 1000000)).natAbs < 2 ^ 53 := by
    rw [Int.natAbs_neg]
    exact hnat
  have hn53 : n.natAbs < 2 ^ 53 := by omega
  have hK := toRat_kMicrosecondsPerSecond
  have hX := Double.toRat_ofInt hn53
  -- the product `n * 1e6` is exact
  have hprod : ((Double.ofInt n).mant : ℚ) * (2 : ℚ) ^ (Double.ofInt n).exp
      * (((Double.ofInt kMicrosecondsPerSecond).mant : ℚ)
          * (2 : ℚ) ^ (Double.ofInt kMicrosecondsPerSecond).exp)
      = (((n * 1000000).natAbs : Nat) : ℚ) := by
    rw [← Double.abs_toRat, ← Double.abs_toRat, hK, hX, Nat.cast_natAbs]
    push_cast
    rw [abs_mul]
  have hP : (Double.mul (Double.ofInt n) (Double.ofInt kMicrosecondsPerSecond)).toRat
      = ((n * 1000000 : Int) : ℚ) := by
    rw [Double.toRat_mul hnat hprod, hK, hX]
    push_cast
    rfl
  have hcast : Double.toInt64 (Double.mul (Double.ofInt n) (Double.ofInt kMicrosecondsPerSecond))
      = some (n * 1000000) := by
    unfold Double.toInt64
    rw [Double.truncate_of_toRat_eq hP, if_pos hn]
  refine ⟨⟨ts.microsecondsSinceEpoch + n * 1000000⟩, ?_, ?_, ?_⟩
  · rw [AddTime_of_toInt64 hcast, wrap64_of_isInt64 hsum]
  · apply Double.eq_of_toRat_eq
    have hdiff : ts.microsecondsSinceEpoch + n * 1000000 - ts.microsecondsSinceEpoch
        = n * 1000000 := by ring
    simp only [TimeDifference, TimeStamp.microsecondsSinceEpoch] at hdiff ⊢
    rw [hdiff, wrap64_of_isInt64 hn, toRat_div_micro hnat, hX]
  · apply Double.eq_of_toRat_eq
    have hdiff : ts.microsecondsSinceEpoch - (ts.microsecondsSinceEpoch + n * 1000000)
        = -n * 1000000 := by ring
    have hfit : isInt64 (-n * 1000000) := by
      unfold isInt64
      omega
    have hnat'' : (-n * 1000000).natAbs < 2 ^ 53 := by omega
    simp only [TimeDifference, TimeStamp.microsecondsSinceEpoch] at hdiff ⊢
    rw [hdiff, wrap64_of_isInt64 hfit, toRat_div_micro hnat'', Double.toRat_neg, hX]
    push_cast
    rfl

theorem TimeDifference_AddTime_witness :
    isInt64 (-3 * 1000000) ∧ isInt64 ((TimeStamp.mk 12345678).microsecondsSinceEpoch + -3 * 1000000) ∧
      AddTime ⟨12345678⟩ (Double.ofInt (-3)) = some ⟨9345678⟩ ∧
      ∃ r, AddTime ⟨12345678⟩ (Double.ofInt (-3)) = some r ∧
        Double.eq (TimeDifference r ⟨12345678⟩) (Double.ofInt (-3)) = true ∧
        Double.eq (TimeDifference ⟨12345678⟩ r) (Double.neg (Double.ofInt (-3))) = true :=
  ⟨by decide, by decide, by decide,
    TimeDifference_AddTime ⟨12345678⟩ (-3) (by decide) (by decide) (by decide)⟩

end booty
